import Mathlib

/-!
Verification development for the kalmanif SE(3) localization demo
(`examples/demo_se3.cpp`).

The development embeds, in Lean 4:

* the demo driver's numeric configuration (time step, noise sigmas,
  covariance matrices, landmark positions) as exact rationals;
* the driver's temporal loop (`for (double t = 0; t < 350; t += dt)`)
  together with an exact model of IEEE-754 binary64 accumulation of
  `t += 0.01`, which settles how many times the loop body runs;
* the per-iteration sequence of filter calls (four propagates, the
  guarded landmark updates, the guarded GPS update) as an event trace;
* the parts of the kalmanif filter library that the demo uses (the
  library itself is not part of this source tree, so those parts are
  modelled from the specification: the SE(3) exponential, the system
  model, the EKF/SEKF/IEKF covariance algebra, and the UKF-M
  sigma-point update).

Theorems named `C1_*` .. `C10_*` settle the corresponding claims about
the specification.
-/

namespace KalmanifSpec

open scoped Matrix

/-! ## Driver constants (exact rationals)

The demo's configuration block, `demo_se3.cpp` lines 138-197.  All the
decimal literals in the source are exactly representable as rationals.
Where the source applies `std::sqrt` to a perfect rational square
(`sqrt(9e-6)`, `sqrt(1e-4)`, `sqrt(0.01)`) we use the exact rational
root and certify the squaring equation as a lemma.  The only
non-rational constant, `y_gps_sigmas = sqrt(6e-3)`, is kept as a real.
-/

/-- Sampling time, `constexpr double dt = 0.01` (line 138). -/
def dt : ℚ := 1/100

/-- The driver's `sqrtdt = std::sqrt(dt)` (line 139); `0.01` is the
exact square of `1/10`. -/
def sqrtdt : ℚ := 1/10

/-- Gyro variance, `constexpr double var_gyro = 1e-4` (line 141). -/
def var_gyro : ℚ := 1/10000

/-- Odometry variance, `constexpr double var_odometry = 9e-6` (line 142). -/
def var_odometry : ℚ := 9/1000000

/-- GPS update frequency in Hz, `constexpr int gps_freq = 10` (line 144). -/
def gps_freq : ℕ := 10

/-- Landmark update frequency in Hz, `constexpr int landmark_freq = 50`
(line 145). -/
def landmark_freq : ℕ := 50

/-- Nominal control `u_nom << 0.1, 0.0, 0.05, 0.0, 0, 0.05` (line 157). -/
def u_nom : Fin 6 → ℚ := ![1/10, 0, 1/20, 0, 0, 1/20]

/-- Control sigmas (lines 158-159):
`u_sigmas.head<3>().setConstant(std::sqrt(var_odometry))` and
`u_sigmas.tail<3>().setConstant(std::sqrt(var_gyro))`.
`sqrt(9e-6) = 3/1000` and `sqrt(1e-4) = 1/100` exactly. -/
def u_sigmas : Fin 6 → ℚ := fun i => if (i : ℕ) < 3 then 3/1000 else 1/100

/-- Control (process) covariance handed to the system model,
`U = (u_sigmas * u_sigmas * 1./dt).matrix().asDiagonal()` (line 160). -/
def U : Matrix (Fin 6) (Fin 6) ℚ :=
  Matrix.diagonal (fun i => u_sigmas i * u_sigmas i * (1/dt))

/-- Landmark measurement sigmas, `y_sigmas << 0.01, 0.01, 0.01` (line 167). -/
def y_sigmas : Fin 3 → ℚ := fun _ => 1/100

/-- Landmark measurement covariance,
`R = (y_sigmas * y_sigmas).matrix().asDiagonal()` (line 168). -/
def R : Matrix (Fin 3) (Fin 3) ℚ :=
  Matrix.diagonal (fun i => y_sigmas i * y_sigmas i)

/-- The five beacon positions (lines 171-175). -/
def landmarks : Fin 5 → Fin 3 → ℚ :=
  ![![2, 0, 0], ![3, -1, -1], ![2, -1, 1], ![2, 1, 1], ![2, 1, -1]]

/-- GPS sigmas, `y_gps_sigmas << sqrt(6e-3), sqrt(6e-3), sqrt(6e-3)`
(line 185).  Irrational, so modelled in `ℝ`. -/
noncomputable def y_gps_sigmas : Fin 3 → ℝ := fun _ => Real.sqrt (6/1000)

/-- GPS measurement covariance as the source actually builds it:
`R_gps = (y_sigmas * y_sigmas).matrix().asDiagonal()` (line 186).
Note the right-hand side uses the landmark `y_sigmas`, not
`y_gps_sigmas`. -/
def R_gps : Matrix (Fin 3) (Fin 3) ℚ :=
  Matrix.diagonal (fun i => y_sigmas i * y_sigmas i)

/-- Per-step control noise (line 217):
`u_noise = randn<Array6d>(u_sigmas / sqrtdt)`.  The random stream is
abstracted as a parameter `w`: `randn(s)` returns `s`-scaled standard
normal draws componentwise, so the draw at step `k` is
`(u_sigmas i / sqrtdt) * w k i`. -/
def u_noise (w : ℕ → Fin 6 → ℚ) (k : ℕ) : Fin 6 → ℚ :=
  fun i => u_sigmas i / sqrtdt * w k i

/-- Noisy control `u_noisy = u_nom + u_noise` (line 218). -/
def u_noisy (w : ℕ → Fin 6 → ℚ) (k : ℕ) : Fin 6 → ℚ :=
  fun i => u_nom i + u_noise w k i

/-- Integrated noisy control fed to the filters, `u_est = u_noisy * dt`
(line 221). -/
def u_est (w : ℕ → Fin 6 → ℚ) (k : ℕ) : Fin 6 → ℚ :=
  fun i => u_noisy w k i * dt

/-- Simulated GPS measurement noise (line 283):
`y_gps_noise = randn(y_gps_sigmas)`, i.e. a standard normal draw scaled
componentwise by `y_gps_sigmas`. -/
noncomputable def y_gps_noise (w : Fin 3 → ℝ) : Fin 3 → ℝ :=
  fun i => y_gps_sigmas i * w i

/-- The initial covariance constructor (lines 191-193):
`StateCovariance init_state_cov;` default-constructs the matrix (for a
fixed-size Eigen matrix the entries are whatever memory held, here the
parameter `D`), after which only the top-left and bottom-right 3×3
blocks are assigned: `init_state_cov.topLeftCorner<3,3>() = I` and
`init_state_cov.bottomRightCorner<3,3>() = I * MANIF_PI_4`.  The
constant `MANIF_PI_4` is abstracted as the parameter `pi4`. -/
def init_state_cov (pi4 : ℚ) (D : Matrix (Fin 6) (Fin 6) ℚ) :
    Matrix (Fin 6) (Fin 6) ℚ :=
  fun i j =>
    if (i : ℕ) < 3 ∧ (j : ℕ) < 3 then (if i = j then 1 else 0)
    else if 3 ≤ (i : ℕ) ∧ 3 ≤ (j : ℕ) then (if i = j then pi4 else 0)
    else D i j

/-! ## Claims about the driver constants -/

/-- C1: the GPS measurement-noise covariance `R_gps` handed to the
filters' update is built from the landmark sigmas
(`R_gps = diag(y_sigmas²) = 1e-4·I₃`), not from the GPS sigmas
`y_gps_sigmas = sqrt(6e-3)`, even though the simulated GPS noise is
drawn with standard deviation `y_gps_sigmas` per axis
(`y_gps_noise = randn(y_gps_sigmas)`). -/
theorem C1_gps_covariance_from_landmark_sigmas :
    R_gps = Matrix.diagonal (fun i => y_sigmas i * y_sigmas i) ∧
    (∀ i, R_gps i i = 1/10000) ∧
    (∀ i j, i ≠ j → R_gps i j = 0) ∧
    (∀ i, (y_gps_sigmas i) ^ 2 = 6/1000) ∧
    (∀ w i, y_gps_noise w i = Real.sqrt (6/1000) * w i) ∧
    R_gps.map (fun q => (q : ℝ)) ≠
      Matrix.diagonal (fun i => (y_gps_sigmas i) ^ 2) := by
  refine ⟨rfl, ?_, ?_, ?_, fun w i => rfl, ?_⟩
  · intro i
    rw [R_gps, Matrix.diagonal_apply_eq]
    norm_num [y_sigmas]
  · intro i j hij
    exact Matrix.diagonal_apply_ne _ hij
  · intro i
    exact Real.sq_sqrt (by norm_num)
  · intro h
    have h00 := congrFun (congrFun h 0) 0
    have hs : (y_gps_sigmas 0) ^ 2 = 6/1000 := Real.sq_sqrt (by norm_num)
    simp only [Matrix.map_apply, Matrix.diagonal_apply_eq, hs] at h00
    rw [R_gps, Matrix.diagonal_apply_eq] at h00
    norm_num [y_sigmas] at h00

/-- C3: the process-noise covariance handed to the system model is
`U = diag(σ²)/dt` where `σ` is `sqrt(9e-6)` on the first three
components (odometry) and `sqrt(1e-4)` on the last three (gyro); the
driver draws the per-step control noise with standard deviation
`σ/sqrt(dt)` and scales the noisy control by `dt` (white-noise
continuous-time convention). -/
theorem C3_process_noise_white_noise_convention :
    (∀ i, U i i = u_sigmas i ^ 2 * (1/dt)) ∧
    (∀ i j, i ≠ j → U i j = 0) ∧
    (∀ i : Fin 6, u_sigmas i ^ 2 =
      if (i : ℕ) < 3 then var_odometry else var_gyro) ∧
    (∀ i, 0 < u_sigmas i) ∧
    sqrtdt ^ 2 = dt ∧ 0 < sqrtdt ∧
    (∀ w k i, u_noise w k i = u_sigmas i / sqrtdt * w k i) ∧
    (∀ w k i, u_est w k i = (u_nom i + u_noise w k i) * dt) := by
  refine ⟨?_, ?_, ?_, ?_, by norm_num [sqrtdt, dt], by norm_num [sqrtdt],
    fun w k i => rfl, fun w k i => rfl⟩
  · intro i
    rw [U, Matrix.diagonal_apply_eq]
    ring
  · intro i j hij
    exact Matrix.diagonal_apply_ne _ hij
  · intro i
    fin_cases i <;> norm_num [u_sigmas, var_odometry, var_gyro]
  · intro i
    fin_cases i <;> norm_num [u_sigmas]

/-- C9: the demo writes only the top-left 3×3 block (to `I`) and the
bottom-right 3×3 block (to `π/4 · I`) of the default-constructed
`init_state_cov`; the two off-diagonal 3×3 blocks are never assigned,
so the filters receive there whatever default construction left
(the parameter `D`). -/
theorem C9_init_cov_offdiagonal_blocks_unwritten :
    ∀ (pi4 : ℚ) (D : Matrix (Fin 6) (Fin 6) ℚ) (i j : Fin 3),
      init_state_cov pi4 D (Fin.castAdd 3 i) (Fin.natAdd 3 j) =
        D (Fin.castAdd 3 i) (Fin.natAdd 3 j) ∧
      init_state_cov pi4 D (Fin.natAdd 3 i) (Fin.castAdd 3 j) =
        D (Fin.natAdd 3 i) (Fin.castAdd 3 j) ∧
      init_state_cov pi4 D (Fin.castAdd 3 i) (Fin.castAdd 3 j) =
        (if i = j then 1 else 0) ∧
      init_state_cov pi4 D (Fin.natAdd 3 i) (Fin.natAdd 3 j) =
        (if i = j then pi4 else 0) := by
  intro pi4 D i j
  have hi3 : (i : ℕ) < 3 := i.isLt
  have hj3 : (j : ℕ) < 3 := j.isLt
  have hca : ∀ a : Fin 3, ((Fin.castAdd 3 a : Fin 6) : ℕ) = (a : ℕ) :=
    fun a => rfl
  have hna : ∀ a : Fin 3, ((Fin.natAdd 3 a : Fin 6) : ℕ) = 3 + (a : ℕ) :=
    fun a => rfl
  refine ⟨?_, ?_, ?_, ?_⟩
  · rw [init_state_cov, if_neg (by rw [hca, hna]; omega),
      if_neg (by rw [hca, hna]; omega)]
  · rw [init_state_cov, if_neg (by rw [hca, hna]; omega),
      if_neg (by rw [hca, hna]; omega)]
  · rw [init_state_cov, if_pos (by rw [hca, hca]; exact ⟨hi3, hj3⟩)]
    have : (Fin.castAdd 3 i = Fin.castAdd 3 j) ↔ i = j := by
      rw [Fin.ext_iff, Fin.ext_iff, hca, hca]
    by_cases h : i = j
    · rw [if_pos (this.mpr h), if_pos h]
    · rw [if_neg (fun hc => h (this.mp hc)), if_neg h]
  · rw [init_state_cov, if_neg (by rw [hna, hna]; omega),
      if_pos (by rw [hna, hna]; omega)]
    have : (Fin.natAdd 3 i = Fin.natAdd 3 j) ↔ i = j := by
      rw [Fin.ext_iff, Fin.ext_iff, hna, hna]
      omega
    by_cases h : i = j
    · rw [if_pos (this.mpr h), if_pos h]
    · rw [if_neg (fun hc => h (this.mp hc)), if_neg h]

/-! ## The temporal loop under binary64 accumulation

The demo's loop head is `for (double t = 0; t < 350; t += dt)` with
`dt = 0.01` (line 213).  The number of body executions is decided by
IEEE-754 binary64 arithmetic: `0.01` is not representable, its double
value is `5764607523034235 / 2^59` (slightly above `1/100`), and the
repeated addition `t += dt` rounds to nearest (ties to even) at each
step.  We model the accumulator exactly: every value of `t` reached by
the loop is an integer multiple of `2^-59`, so a state is the natural
number `n` with `t = n / 2^59`.  All reached values lie below `2^68`
on that scale, and for a positive double `s / 2^59 < 2^68 / 2^59` the
unit in the last place is `2^(e-52)` where `2^e ≤ s/2^59 < 2^(e+1)`.
This model was validated output-for-output against hardware binary64
evaluation of the same loop at every one of its steps.
-/

/-- Integer numerator of the binary64 value of the literal `0.01` on
the `2^-59` grid: `double(0.01) = 5764607523034235 / 2^59`. -/
def mD : ℕ := 5764607523034235

/-- Unit in the last place, on the `2^-59` integer grid, of a binary64
number with scaled value `s` (valid for `s < 2^68`, which covers every
value reached by the demo loop; the thresholds are the binades
`2^53 .. 2^67`). -/
def ulp59 (s : ℕ) : ℕ :=
  if s < 9007199254740992 then 1
  else if s < 18014398509481984 then 2
  else if s < 36028797018963968 then 4
  else if s < 72057594037927936 then 8
  else if s < 144115188075855872 then 16
  else if s < 288230376151711744 then 32
  else if s < 576460752303423488 then 64
  else if s < 1152921504606846976 then 128
  else if s < 2305843009213693952 then 256
  else if s < 4611686018427387904 then 512
  else if s < 9223372036854775808 then 1024
  else if s < 18446744073709551616 then 2048
  else if s < 36893488147419103232 then 4096
  else if s < 73786976294838206464 then 8192
  else if s < 147573952589676412928 then 16384
  else 32768

/-- Round the exact sum `s` (on the `2^-59` grid) to the nearest
binary64 value, ties to even, and return it on the same grid.  This is
the rounding that `t += dt` performs after the exact addition. -/
def fpRound (s : ℕ) : ℕ :=
  let g := ulp59 s
  let q := s / g
  let r := s % g
  if 2 * r < g then q * g
  else if 2 * r > g then (q + 1) * g
  else if q % 2 = 0 then q * g else (q + 1) * g

/-- One execution of `t += dt` in binary64: exact addition of
`double(0.01)` followed by round to nearest, ties to even. -/
def fpAdd (n : ℕ) : ℕ := fpRound (n + mD)

/-- The binary64 accumulator `t` after `k` executions of `t += dt`,
on the `2^-59` integer grid; `tSeq 0 = 0` is the loop's initial
`t = 0`. -/
def tSeq (k : ℕ) : ℕ := fpAdd^[k] 0

/-- The loop bound `350` on the `2^-59` grid; `350` is exactly
representable in binary64, and the comparison `t < 350` is exact. -/
def tLimit : ℕ := 350 * 2 ^ 59

theorem tSeq_succ (k : ℕ) : tSeq (k + 1) = fpAdd (tSeq k) :=
  Function.iterate_succ_apply' fpAdd k 0

theorem tSeq_shift (a b n v w : ℕ) (h1 : tSeq a = v)
    (h2 : fpAdd^[b] v = w) (hab : b + a = n) : tSeq n = w := by
  rw [← hab, tSeq, Function.iterate_add_apply, ← tSeq, h1, h2]

theorem ulp59_bounds (s : ℕ) : 0 < ulp59 s ∧ ulp59 s ≤ 32768 := by
  rw [ulp59]
  rcases Nat.lt_or_ge s 9007199254740992 with h0 | h0
  · rw [if_pos h0]
    norm_num
  rw [if_neg (by omega)]
  rcases Nat.lt_or_ge s 18014398509481984 with h1 | h1
  · rw [if_pos h1]
    norm_num
  rw [if_neg (by omega)]
  rcases Nat.lt_or_ge s 36028797018963968 with h2 | h2
  · rw [if_pos h2]
    norm_num
  rw [if_neg (by omega)]
  rcases Nat.lt_or_ge s 72057594037927936 with h3 | h3
  · rw [if_pos h3]
    norm_num
  rw [if_neg (by omega)]
  rcases Nat.lt_or_ge s 144115188075855872 with h4 | h4
  · rw [if_pos h4]
    norm_num
  rw [if_neg (by omega)]
  rcases Nat.lt_or_ge s 288230376151711744 with h5 | h5
  · rw [if_pos h5]
    norm_num
  rw [if_neg (by omega)]
  rcases Nat.lt_or_ge s 576460752303423488 with h6 | h6
  · rw [if_pos h6]
    norm_num
  rw [if_neg (by omega)]
  rcases Nat.lt_or_ge s 1152921504606846976 with h7 | h7
  · rw [if_pos h7]
    norm_num
  rw [if_neg (by omega)]
  rcases Nat.lt_or_ge s 2305843009213693952 with h8 | h8
  · rw [if_pos h8]
    norm_num
  rw [if_neg (by omega)]
  rcases Nat.lt_or_ge s 4611686018427387904 with h9 | h9
  · rw [if_pos h9]
    norm_num
  rw [if_neg (by omega)]
  rcases Nat.lt_or_ge s 9223372036854775808 with h10 | h10
  · rw [if_pos h10]
    norm_num
  rw [if_neg (by omega)]
  rcases Nat.lt_or_ge s 18446744073709551616 with h11 | h11
  · rw [if_pos h11]
    norm_num
  rw [if_neg (by omega)]
  rcases Nat.lt_or_ge s 36893488147419103232 with h12 | h12
  · rw [if_pos h12]
    norm_num
  rw [if_neg (by omega)]
  rcases Nat.lt_or_ge s 73786976294838206464 with h13 | h13
  · rw [if_pos h13]
    norm_num
  rw [if_neg (by omega)]
  rcases Nat.lt_or_ge s 147573952589676412928 with h14 | h14
  · rw [if_pos h14]
    norm_num
  rw [if_neg (by omega)]
  norm_num

theorem fpRound_ge (s : ℕ) : s - 32767 ≤ fpRound s := by
  have hg1 : 0 < ulp59 s := (ulp59_bounds s).1
  have hg2 : ulp59 s ≤ 32768 := (ulp59_bounds s).2
  have hdm : s % ulp59 s + s / ulp59 s * ulp59 s = s := Nat.mod_add_div' s _
  have hml : s % ulp59 s < ulp59 s := Nat.mod_lt s hg1
  rw [fpRound]
  split_ifs <;>
    first
    | · rw [Nat.succ_mul]
        generalize s / ulp59 s * ulp59 s = A at hdm ⊢
        omega
    | · generalize s / ulp59 s * ulp59 s = A at hdm ⊢
        omega

theorem fpAdd_gt (n : ℕ) : n < fpAdd n := by
  have h := fpRound_ge (n + mD)
  rw [fpAdd]
  have hm : (32767 : ℕ) < mD := by rw [mD]; norm_num
  omega

theorem tSeq_strictMono : StrictMono tSeq :=
  strictMono_nat_of_lt_succ fun k => by rw [tSeq_succ]; exact fpAdd_gt _

/-- Within a binade where the ulp is the constant `g`, one `t += dt`
step started at a multiple of `g` adds a constant `D`: the exact sum
keeps the residue `mD % g`, so rounding always moves by the same
amount. -/
theorem fpAdd_const (g LO HI D : ℕ)
    (hulp : ∀ s, LO ≤ s → s < HI → ulp59 s = g)
    (htie : 2 * (mD % g) ≠ g)
    (hD : D = mD - mD % g + (if 2 * (mD % g) < g then 0 else g))
    (n : ℕ) (hdvd : g ∣ n) (h1 : LO ≤ n + mD) (h2 : n + mD < HI) :
    fpAdd n = n + D := by
  obtain ⟨k, hk⟩ := hdvd
  have hmod : (n + mD) % g = mD % g := by rw [hk, Nat.mul_add_mod]
  have hdm2 : g * ((n + mD) / g) + (n + mD) % g = n + mD :=
    Nat.div_add_mod _ _
  have hdm : g * (mD / g) + mD % g = mD := Nat.div_add_mod _ _
  simp only [fpAdd, fpRound]
  rw [hulp _ h1 h2, hmod]
  by_cases hlt : 2 * (mD % g) < g
  · rw [if_pos hlt, hD, if_pos hlt, Nat.mul_comm]
    generalize g * ((n + mD) / g) = A at hdm2
    generalize hB : g * (mD / g) = B at hdm
    omega
  · have hgt : 2 * (mD % g) > g := by omega
    rw [if_neg hlt, if_pos hgt, hD, if_neg hlt, Nat.succ_mul,
      Nat.mul_comm]
    generalize g * ((n + mD) / g) = A at hdm2
    generalize hB : g * (mD / g) = B at hdm
    omega

theorem dvd_of_binade_inc (g D : ℕ)
    (hD : D = mD - mD % g + (if 2 * (mD % g) < g then 0 else g)) :
    g ∣ D := by
  have hdm : g * (mD / g) + mD % g = mD := Nat.div_add_mod _ _
  rcases Nat.lt_or_ge (2 * (mD % g)) g with h | h
  · refine ⟨mD / g, ?_⟩
    rw [hD, if_pos h]
    generalize hB : g * (mD / g) = B at hdm ⊢
    omega
  · refine ⟨mD / g + 1, ?_⟩
    rw [hD, if_neg (by omega), Nat.mul_add, Nat.mul_one]
    generalize hB : g * (mD / g) = B at hdm ⊢
    omega

/-- Iterated form of `fpAdd_const`: `j` steps inside one binade add
`j * D`. -/
theorem fpIter_const (g LO HI D : ℕ)
    (hulp : ∀ s, LO ≤ s → s < HI → ulp59 s = g)
    (htie : 2 * (mD % g) ≠ g)
    (hD : D = mD - mD % g + (if 2 * (mD % g) < g then 0 else g)) :
    ∀ (j n : ℕ), g ∣ n → LO ≤ n + mD → n + mD + j * D < HI + D →
      fpAdd^[j] n = n + j * D := by
  intro j
  induction j with
  | zero =>
    intro n _ _ _
    simp
  | succ j ih =>
    intro n hdvd hlo hhi
    have hJD : n + mD + (j * D + D) < HI + D := by
      have h := hhi
      rwa [Nat.succ_mul] at h
    have hlt : n + mD < HI := by
      generalize j * D = JD at hJD
      omega
    have hstep : fpAdd n = n + D :=
      fpAdd_const g LO HI D hulp htie hD n hdvd hlo hlt
    have hih : fpAdd^[j] (n + D) = (n + D) + j * D := by
      refine ih (n + D) (dvd_add hdvd (dvd_of_binade_inc g D hD))
        (by omega) ?_
      generalize j * D = JD at hJD ⊢
      omega
    calc fpAdd^[j + 1] n = fpAdd^[j] (fpAdd n) :=
          Function.iterate_succ_apply fpAdd j n
      _ = fpAdd^[j] (n + D) := by rw [hstep]
      _ = (n + D) + j * D := hih
      _ = n + (j + 1) * D := by
            rw [Nat.succ_mul]
            generalize j * D = JD
            omega

set_option maxRecDepth 4000 in
/-- The first 99 additions, through all the short low binades
(including the tie binade around `t = 0.02`), evaluated directly. -/
theorem tSeq_99 : tSeq 99 = 570696144780389632 := by decide

theorem ulp59_binade_128 :
    ∀ s, 576460752303423488 ≤ s → s < 1152921504606846976 → ulp59 s = 128 := by
  intro s h1 h2
  rw [ulp59]
  rw [if_neg (by omega)]
  rw [if_neg (by omega)]
  rw [if_neg (by omega)]
  rw [if_neg (by omega)]
  rw [if_neg (by omega)]
  rw [if_neg (by omega)]
  rw [if_neg (by omega)]
  rw [if_pos (by omega)]

theorem tSeq_199 : tSeq 199 = 1147156897083813632 := by
  have halign : tSeq 100 = 576460752303423872 := by
    refine tSeq_shift 99 1 100 570696144780389632 576460752303423872 tSeq_99 ?_ (by norm_num)
    decide
  have hrun : fpAdd^[99] 576460752303423872 = 1147156897083813632 := by
    have h := fpIter_const 128 576460752303423488 1152921504606846976 5764607523034240
      ulp59_binade_128 (by decide) (by decide) 99 576460752303423872
      (⟨4503599627370499, by norm_num⟩) (by decide) (by decide)
    exact h.trans (by norm_num)
  exact tSeq_shift 100 99 199 576460752303423872 1147156897083813632 halign hrun (by norm_num)

theorem ulp59_binade_256 :
    ∀ s, 1152921504606846976 ≤ s → s < 2305843009213693952 → ulp59 s = 256 := by
  intro s h1 h2
  rw [ulp59]
  rw [if_neg (by omega)]
  rw [if_neg (by omega)]
  rw [if_neg (by omega)]
  rw [if_neg (by omega)]
  rw [if_neg (by omega)]
  rw [if_neg (by omega)]
  rw [if_neg (by omega)]
  rw [if_neg (by omega)]
  rw [if_pos (by omega)]

theorem tSeq_400 : tSeq 400 = 2305843009213670144 := by
  have halign : tSeq 200 = 1152921504606847744 := by
    refine tSeq_shift 199 1 200 1147156897083813632 1152921504606847744 tSeq_199 ?_ (by norm_num)
    decide
  have hrun : fpAdd^[200] 1152921504606847744 = 2305843009213670144 := by
    have h := fpIter_const 256 1152921504606846976 2305843009213693952 5764607523034112
      ulp59_binade_256 (by decide) (by decide) 200 1152921504606847744
      (⟨4503599627370499, by norm_num⟩) (by decide) (by decide)
    exact h.trans (by norm_num)
  exact tSeq_shift 200 200 400 1152921504606847744 2305843009213670144 halign hrun (by norm_num)

theorem ulp59_binade_512 :
    ∀ s, 2305843009213693952 ≤ s → s < 4611686018427387904 → ulp59 s = 512 := by
  intro s h1 h2
  rw [ulp59]
  rw [if_neg (by omega)]
  rw [if_neg (by omega)]
  rw [if_neg (by omega)]
  rw [if_neg (by omega)]
  rw [if_neg (by omega)]
  rw [if_neg (by omega)]
  rw [if_neg (by omega)]
  rw [if_neg (by omega)]
  rw [if_neg (by omega)]
  rw [if_pos (by omega)]

theorem tSeq_800 : tSeq 800 = 4611686018427315200 := by
  have halign : tSeq 401 = 2311607616736704512 := by
    refine tSeq_shift 400 1 401 2305843009213670144 2311607616736704512 tSeq_400 ?_ (by norm_num)
    decide
  have hrun : fpAdd^[399] 2311607616736704512 = 4611686018427315200 := by
    have h := fpIter_const 512 2305843009213693952 4611686018427387904 5764607523034112
      ulp59_binade_512 (by decide) (by decide) 399 2311607616736704512
      (⟨4514858626438876, by norm_num⟩) (by decide) (by decide)
    exact h.trans (by norm_num)
  exact tSeq_shift 401 399 800 2311607616736704512 4611686018427315200 halign hrun (by norm_num)

theorem ulp59_binade_1024 :
    ∀ s, 4611686018427387904 ≤ s → s < 9223372036854775808 → ulp59 s = 1024 := by
  intro s h1 h2
  rw [ulp59]
  rw [if_neg (by omega)]
  rw [if_neg (by omega)]
  rw [if_neg (by omega)]
  rw [if_neg (by omega)]
  rw [if_neg (by omega)]
  rw [if_neg (by omega)]
  rw [if_neg (by omega)]
  rw [if_neg (by omega)]
  rw [if_neg (by omega)]
  rw [if_neg (by omega)]
  rw [if_pos (by omega)]

theorem tSeq_1600 : tSeq 1600 = 9223372036854604800 := by
  have halign : tSeq 801 = 4617450625950349312 := by
    refine tSeq_shift 800 1 801 4611686018427315200 4617450625950349312 tSeq_800 ?_ (by norm_num)
    decide
  have hrun : fpAdd^[799] 4617450625950349312 = 9223372036854604800 := by
    have h := fpIter_const 1024 4611686018427387904 9223372036854775808 5764607523034112
      ulp59_binade_1024 (by decide) (by decide) 799 4617450625950349312
      (⟨4509229126904638, by norm_num⟩) (by decide) (by decide)
    exact h.trans (by norm_num)
  exact tSeq_shift 801 799 1600 4617450625950349312 9223372036854604800 halign hrun (by norm_num)

theorem ulp59_binade_2048 :
    ∀ s, 9223372036854775808 ≤ s → s < 18446744073709551616 → ulp59 s = 2048 := by
  intro s h1 h2
  rw [ulp59]
  rw [if_neg (by omega)]
  rw [if_neg (by omega)]
  rw [if_neg (by omega)]
  rw [if_neg (by omega)]
  rw [if_neg (by omega)]
  rw [if_neg (by omega)]
  rw [if_neg (by omega)]
  rw [if_neg (by omega)]
  rw [if_neg (by omega)]
  rw [if_neg (by omega)]
  rw [if_neg (by omega)]
  rw [if_pos (by omega)]

theorem tSeq_3199 : tSeq 3199 = 18440979466187786240 := by
  have halign : tSeq 1601 = 9229136644377638912 := by
    refine tSeq_shift 1600 1 1601 9223372036854604800 9229136644377638912 tSeq_1600 ?_ (by norm_num)
    decide
  have hrun : fpAdd^[1598] 9229136644377638912 = 18440979466187786240 := by
    have h := fpIter_const 2048 9223372036854775808 18446744073709551616 5764607523035136
      ulp59_binade_2048 (by decide) (by decide) 1598 9229136644377638912
      (⟨4506414377137519, by norm_num⟩) (by decide) (by decide)
    exact h.trans (by norm_num)
  exact tSeq_shift 1601 1598 3199 9229136644377638912 18440979466187786240 halign hrun (by norm_num)

theorem ulp59_binade_4096 :
    ∀ s, 18446744073709551616 ≤ s → s < 36893488147419103232 → ulp59 s = 4096 := by
  intro s h1 h2
  rw [ulp59]
  rw [if_neg (by omega)]
  rw [if_neg (by omega)]
  rw [if_neg (by omega)]
  rw [if_neg (by omega)]
  rw [if_neg (by omega)]
  rw [if_neg (by omega)]
  rw [if_neg (by omega)]
  rw [if_neg (by omega)]
  rw [if_neg (by omega)]
  rw [if_neg (by omega)]
  rw [if_neg (by omega)]
  rw [if_neg (by omega)]
  rw [if_pos (by omega)]

theorem tSeq_6400 : tSeq 6400 = 36893488147416702976 := by
  have halign : tSeq 3200 = 18446744073710821376 := by
    refine tSeq_shift 3199 1 3200 18440979466187786240 18446744073710821376 tSeq_3199 ?_ (by norm_num)
    decide
  have hrun : fpAdd^[3200] 18446744073710821376 = 36893488147416702976 := by
    have h := fpIter_const 4096 18446744073709551616 36893488147419103232 5764607523033088
      ulp59_binade_4096 (by decide) (by decide) 3200 18446744073710821376
      (⟨4503599627370806, by norm_num⟩) (by decide) (by decide)
    exact h.trans (by norm_num)
  exact tSeq_shift 3200 3200 6400 18446744073710821376 36893488147416702976 halign hrun (by norm_num)

theorem ulp59_binade_8192 :
    ∀ s, 36893488147419103232 ≤ s → s < 73786976294838206464 → ulp59 s = 8192 := by
  intro s h1 h2
  rw [ulp59]
  rw [if_neg (by omega)]
  rw [if_neg (by omega)]
  rw [if_neg (by omega)]
  rw [if_neg (by omega)]
  rw [if_neg (by omega)]
  rw [if_neg (by omega)]
  rw [if_neg (by omega)]
  rw [if_neg (by omega)]
  rw [if_neg (by omega)]
  rw [if_neg (by omega)]
  rw [if_neg (by omega)]
  rw [if_neg (by omega)]
  rw [if_neg (by omega)]
  rw [if_pos (by omega)]

theorem tSeq_12799 : tSeq 12799 = 73781211687331643392 := by
  have halign : tSeq 6401 = 36899252754939740160 := by
    refine tSeq_shift 6400 1 6401 36893488147416702976 36899252754939740160 tSeq_6400 ?_ (by norm_num)
    decide
  have hrun : fpAdd^[6398] 36899252754939740160 = 73781211687331643392 := by
    have h := fpIter_const 8192 36893488147419103232 73786976294838206464 5764607523037184
      ulp59_binade_8192 (by decide) (by decide) 6398 36899252754939740160
      (⟨4504303314811980, by norm_num⟩) (by decide) (by decide)
    exact h.trans (by norm_num)
  exact tSeq_shift 6401 6398 12799 36899252754939740160 73781211687331643392 halign hrun (by norm_num)

theorem ulp59_binade_16384 :
    ∀ s, 73786976294838206464 ≤ s → s < 147573952589676412928 → ulp59 s = 16384 := by
  intro s h1 h2
  rw [ulp59]
  rw [if_neg (by omega)]
  rw [if_neg (by omega)]
  rw [if_neg (by omega)]
  rw [if_neg (by omega)]
  rw [if_neg (by omega)]
  rw [if_neg (by omega)]
  rw [if_neg (by omega)]
  rw [if_neg (by omega)]
  rw [if_neg (by omega)]
  rw [if_neg (by omega)]
  rw [if_neg (by omega)]
  rw [if_neg (by omega)]
  rw [if_neg (by omega)]
  rw [if_neg (by omega)]
  rw [if_pos (by omega)]

theorem tSeq_25600 : tSeq 25600 = 147573952589625769984 := by
  have halign : tSeq 12800 = 73786976294854672384 := by
    refine tSeq_shift 12799 1 12800 73781211687331643392 73786976294854672384 tSeq_12799 ?_ (by norm_num)
    decide
  have hrun : fpAdd^[12800] 73786976294854672384 = 147573952589625769984 := by
    have h := fpIter_const 16384 73786976294838206464 147573952589676412928 5764607523028992
      ulp59_binade_16384 (by decide) (by decide) 12800 73786976294854672384
      (⟨4503599627371501, by norm_num⟩) (by decide) (by decide)
    exact h.trans (by norm_num)
  exact tSeq_shift 12800 12800 25600 73786976294854672384 147573952589625769984 halign hrun (by norm_num)

theorem ulp59_binade_32768 :
    ∀ s, 147573952589676412928 ≤ s → s < 295147905179352825856 → ulp59 s = 32768 := by
  intro s h1 h2
  rw [ulp59]
  rw [if_neg (by omega)]
  rw [if_neg (by omega)]
  rw [if_neg (by omega)]
  rw [if_neg (by omega)]
  rw [if_neg (by omega)]
  rw [if_neg (by omega)]
  rw [if_neg (by omega)]
  rw [if_neg (by omega)]
  rw [if_neg (by omega)]
  rw [if_neg (by omega)]
  rw [if_neg (by omega)]
  rw [if_neg (by omega)]
  rw [if_neg (by omega)]
  rw [if_neg (by omega)]
  rw [if_neg (by omega)]

theorem tSeq_35000 : tSeq 35000 = 201761263306098311168 := by
  have halign : tSeq 25601 = 147579717197148815360 := by
    refine tSeq_shift 25600 1 25601 147573952589625769984 147579717197148815360 tSeq_25600 ?_ (by norm_num)
    decide
  have hrun : fpAdd^[9399] 147579717197148815360 = 201761263306098311168 := by
    have h := fpIter_const 32768 147573952589676412928 295147905179352825856 5764607523028992
      ulp59_binade_32768 (by decide) (by decide) 9399 147579717197148815360
      (⟨4503775549229395, by norm_num⟩) (by decide) (by decide)
    exact h.trans (by norm_num)
  exact tSeq_shift 25601 9399 35000 147579717197148815360 201761263306098311168 halign hrun (by norm_num)

/-- One more step crosses the bound: the accumulator after 35001
additions. -/
theorem tSeq_35001 : tSeq 35001 = 201767027913621340160 := by
  rw [tSeq_succ, tSeq_35000]
  decide

theorem tSeq_35000_lt : tSeq 35000 < tLimit := by
  rw [tSeq_35000, tLimit]
  norm_num

theorem exStop : ∃ k, tLimit ≤ tSeq k :=
  ⟨35001, by rw [tSeq_35001, tLimit]; norm_num⟩

/-- Number of executions of the body of
`for (double t = 0; t < 350; t += dt)`: the least `k` for which the
binary64 accumulator has reached `350`. -/
noncomputable def loopIters : ℕ := Nat.find exStop

/-- The demo loop body runs 35001 times: after 35000 binary64
additions of `double(0.01)` the accumulator is still about `1.7e-10`
below `350`, so one extra iteration runs. -/
theorem loopIters_eq : loopIters = 35001 := by
  rw [loopIters, Nat.find_eq_iff]
  refine ⟨by rw [tSeq_35001, tLimit]; norm_num, ?_⟩
  intro k hk
  rw [not_le]
  calc tSeq k ≤ tSeq 35000 := tSeq_strictMono.monotone (by omega)
    _ < tLimit := tSeq_35000_lt

/-! ## The per-iteration trace of filter calls

Each iteration of the demo loop (lines 213-321) performs, in source
order: the four propagates (lines 244-250, the IEKF one with the
extra `dt` argument), then — guarded by
`int(t*100) % int(100./landmark_freq) == 0` — the five landmark
updates, each applied to the four filters in turn (lines 256-273),
then — guarded by `int(t*100) % int(100./gps_freq) == 0` — the GPS
update applied to the four filters (lines 275-294).  We model the
sequence of filter calls of one iteration as an explicit event list,
parametric in the scalar type `α` of the payloads, in the integer `n`
that the program computes as `int(t*100)`, and in the values fed
(control `u`, stored landmark measurements `ys`, GPS measurement
`ygps`). -/

/-- The four filter objects of the demo. -/
inductive FilterIx where
  | ekf
  | sekf
  | iekf
  | ukfm
  deriving DecidableEq

/-- One filter call of the demo loop body, with its payload. -/
inductive DemoEvent (α : Type) where
  | prop (f : FilterIx) (u : Fin 6 → α) (dtArg : Option α)
  | lmUpdate (f : FilterIx) (i : Fin 5) (y : Fin 3 → α)
  | gpsUpdate (f : FilterIx) (y : Fin 3 → α)

/-- Landmark-update period in loop ticks: `int(100./landmark_freq)`
with `landmark_freq = 50`, i.e. `2`. -/
def lmModulus : ℕ := 2

/-- GPS-update period in loop ticks: `int(100./gps_freq)` with
`gps_freq = 10`, i.e. `10`. -/
def gpsModulus : ℕ := 10

/-- The four propagate calls (lines 244-250): `ekf`, `sekf`, `iekf`,
`ukfm`, in that order, all with the same `u_est`; only the IEKF call
passes the extra `dt` argument. -/
def propCalls {α : Type} (u : Fin 6 → α) (dtv : α) : List (DemoEvent α) :=
  [.prop .ekf u none, .prop .sekf u none, .prop .iekf u (some dtv),
   .prop .ukfm u none]

/-- The landmark update calls (lines 256-273): for each of the five
stored measurements, update `ekf`, `sekf`, `iekf`, `ukfm` in that
order with the same stored value (the `for` loop unrolled). -/
def lmCalls {α : Type} (ys : Fin 5 → Fin 3 → α) : List (DemoEvent α) :=
  [.lmUpdate .ekf 0 (ys 0), .lmUpdate .sekf 0 (ys 0),
   .lmUpdate .iekf 0 (ys 0), .lmUpdate .ukfm 0 (ys 0),
   .lmUpdate .ekf 1 (ys 1), .lmUpdate .sekf 1 (ys 1),
   .lmUpdate .iekf 1 (ys 1), .lmUpdate .ukfm 1 (ys 1),
   .lmUpdate .ekf 2 (ys 2), .lmUpdate .sekf 2 (ys 2),
   .lmUpdate .iekf 2 (ys 2), .lmUpdate .ukfm 2 (ys 2),
   .lmUpdate .ekf 3 (ys 3), .lmUpdate .sekf 3 (ys 3),
   .lmUpdate .iekf 3 (ys 3), .lmUpdate .ukfm 3 (ys 3),
   .lmUpdate .ekf 4 (ys 4), .lmUpdate .sekf 4 (ys 4),
   .lmUpdate .iekf 4 (ys 4), .lmUpdate .ukfm 4 (ys 4)]

/-- The GPS update calls (lines 287-293): the four filters in order,
all with the same noisy GPS measurement. -/
def gpsCalls {α : Type} (y : Fin 3 → α) : List (DemoEvent α) :=
  [.gpsUpdate .ekf y, .gpsUpdate .sekf y, .gpsUpdate .iekf y,
   .gpsUpdate .ukfm y]

/-- The filter calls of one demo loop iteration, in source order. -/
def iterFilterCalls {α : Type} (n : ℕ) (u : Fin 6 → α) (dtv : α)
    (ys : Fin 5 → Fin 3 → α) (ygps : Fin 3 → α) : List (DemoEvent α) :=
  propCalls u dtv ++
    (if n % lmModulus = 0 then lmCalls ys else []) ++
    (if n % gpsModulus = 0 then gpsCalls ygps else [])

/-- Controls fed to filter `f` by a list of calls. -/
def controlsFedTo {α : Type} (f : FilterIx) (l : List (DemoEvent α)) :
    List (Fin 6 → α) :=
  l.filterMap fun e =>
    match e with
    | .prop g u _ => if g = f then some u else none
    | _ => none

/-- Propagate events of a list of calls, with all their arguments. -/
def propEvents {α : Type} (l : List (DemoEvent α)) :
    List (FilterIx × (Fin 6 → α) × Option α) :=
  l.filterMap fun e =>
    match e with
    | .prop g u d => some (g, u, d)
    | _ => none

/-- Landmark measurements fed to filter `f` by a list of calls. -/
def lmFedTo {α : Type} (f : FilterIx) (l : List (DemoEvent α)) :
    List (Fin 5 × (Fin 3 → α)) :=
  l.filterMap fun e =>
    match e with
    | .lmUpdate g i y => if g = f then some (i, y) else none
    | _ => none

/-- GPS measurements fed to filter `f` by a list of calls. -/
def gpsFedTo {α : Type} (f : FilterIx) (l : List (DemoEvent α)) :
    List (Fin 3 → α) :=
  l.filterMap fun e =>
    match e with
    | .gpsUpdate g y => if g = f then some y else none
    | _ => none

/-- All landmark-update events of a list of calls. -/
def lmEvents {α : Type} (l : List (DemoEvent α)) :
    List (FilterIx × Fin 5 × (Fin 3 → α)) :=
  l.filterMap fun e =>
    match e with
    | .lmUpdate g i y => some (g, i, y)
    | _ => none

/-- All GPS-update events of a list of calls. -/
def gpsEvents {α : Type} (l : List (DemoEvent α)) :
    List (FilterIx × (Fin 3 → α)) :=
  l.filterMap fun e =>
    match e with
    | .gpsUpdate g y => some (g, y)
    | _ => none

/-- The `dt` arguments of the propagate calls issued to filter `f`. -/
def dtArgsFedTo {α : Type} (f : FilterIx) (l : List (DemoEvent α)) :
    List (Option α) :=
  l.filterMap fun e =>
    match e with
    | .prop g _ d => if g = f then some d else none
    | _ => none

/-- C2 (counterexample): the claim says the demo runs a loop of 35 000
propagate steps; under the binary64 semantics of
`for (double t = 0; t < 350; t += dt)` the body in fact runs 35 001
times, because the accumulated `t` is still below `350` after 35 000
additions of `double(0.01)`. -/
theorem C2_counterexample_loop_count : loopIters ≠ 35000 ∧ loopIters = 35001 := by
  rw [loopIters_eq]
  exact ⟨by norm_num, rfl⟩

/-- C2 (amended): the demo driver realises scenario S4 with 35 001
iterations (not 35 000; binary64 accumulation of `t += 0.01` admits
one extra iteration): nominal control `u_nom = (0.1,0,0.05,0,0,0.05)`
scaled by `dt = 0.01`, the five landmarks of the source, and in every
iteration the identical noisy control `u_est` and the identical stored
measurement values are fed to all four filters. -/
theorem C2_scenario_s4_configuration :
    loopIters = 35001 ∧
    dt = 1/100 ∧
    u_nom = ![1/10, 0, 1/20, 0, 0, 1/20] ∧
    landmarks 0 = ![2, 0, 0] ∧ landmarks 1 = ![3, -1, -1] ∧
    landmarks 2 = ![2, -1, 1] ∧ landmarks 3 = ![2, 1, 1] ∧
    landmarks 4 = ![2, 1, -1] ∧
    (∀ w k i, u_est w k i = (u_nom i + u_sigmas i / sqrtdt * w k i) * dt) ∧
    (∀ (α : Type) (n : ℕ) (u : Fin 6 → α) (dtv : α)
        (ys : Fin 5 → Fin 3 → α) (ygps : Fin 3 → α) (f : FilterIx),
      controlsFedTo f (iterFilterCalls n u dtv ys ygps) = [u] ∧
      lmFedTo f (iterFilterCalls n u dtv ys ygps) =
        (if n % lmModulus = 0 then
          [(0, ys 0), (1, ys 1), (2, ys 2), (3, ys 3), (4, ys 4)]
         else []) ∧
      gpsFedTo f (iterFilterCalls n u dtv ys ygps) =
        (if n % gpsModulus = 0 then [ygps] else [])) := by
  refine ⟨loopIters_eq, rfl, rfl, rfl, rfl, rfl, rfl, rfl,
    fun w k i => rfl, ?_⟩
  intro α n u dtv ys ygps f
  by_cases h2 : n % lmModulus = 0 <;> by_cases h10 : n % gpsModulus = 0 <;>
    cases f <;>
    simp [iterFilterCalls, propCalls, lmCalls, gpsCalls, controlsFedTo,
      lmFedTo, gpsFedTo, h2, h10]

/-- C4: all four filters are driven through the same propagate entry
point, which takes the control and an optional `dt`; in the demo only
the IEKF call receives the extra `dt` argument
(`iekf.propagate(system_model, u_est, dt)`, lines 244-250), the EKF,
SEKF and UKFM calls pass none. -/
theorem C4_only_iekf_propagate_gets_dt :
    ∀ (α : Type) (n : ℕ) (u : Fin 6 → α) (dtv : α)
      (ys : Fin 5 → Fin 3 → α) (ygps : Fin 3 → α),
      (∀ f : FilterIx,
        dtArgsFedTo f (iterFilterCalls n u dtv ys ygps) =
          [if f = .iekf then some dtv else none] ∧
        controlsFedTo f (iterFilterCalls n u dtv ys ygps) = [u]) ∧
      propEvents (iterFilterCalls n u dtv ys ygps) =
        [(.ekf, u, none), (.sekf, u, none), (.iekf, u, some dtv),
         (.ukfm, u, none)] := by
  intro α n u dtv ys ygps
  constructor
  · intro f
    by_cases h2 : n % lmModulus = 0 <;> by_cases h10 : n % gpsModulus = 0 <;>
      cases f <;>
      simp [iterFilterCalls, propCalls, lmCalls, gpsCalls, dtArgsFedTo,
        controlsFedTo, h2, h10]
  · by_cases h2 : n % lmModulus = 0 <;> by_cases h10 : n % gpsModulus = 0 <;>
      simp [iterFilterCalls, propCalls, lmCalls, gpsCalls, propEvents,
        h2, h10]

/-- C10: in every iteration each filter is propagated exactly once and
before any update; landmark updates happen exactly when
`int(t*100) % 2 = 0` and the GPS update exactly when
`int(t*100) % 10 = 0` (the moduli being `int(100/landmark_freq)` and
`int(100/gps_freq)`), so an iteration with a GPS update also performs
the five landmark updates, and the landmark updates precede the GPS
update. -/
theorem C10_update_schedule :
    lmModulus = 100 / landmark_freq ∧
    gpsModulus = 100 / gps_freq ∧
    ∀ (α : Type) (n : ℕ) (u : Fin 6 → α) (dtv : α)
      (ys : Fin 5 → Fin 3 → α) (ygps : Fin 3 → α),
      propEvents (iterFilterCalls n u dtv ys ygps) =
        [(.ekf, u, none), (.sekf, u, none), (.iekf, u, some dtv),
         (.ukfm, u, none)] ∧
      (∃ tail, iterFilterCalls n u dtv ys ygps = propCalls u dtv ++ tail ∧
        propEvents tail = []) ∧
      (lmEvents (iterFilterCalls n u dtv ys ygps) ≠ [] ↔
        n % lmModulus = 0) ∧
      (gpsEvents (iterFilterCalls n u dtv ys ygps) ≠ [] ↔
        n % gpsModulus = 0) ∧
      (gpsEvents (iterFilterCalls n u dtv ys ygps) ≠ [] →
        lmEvents (iterFilterCalls n u dtv ys ygps) ≠ []) ∧
      (∃ l1 l2, iterFilterCalls n u dtv ys ygps = l1 ++ l2 ∧
        gpsEvents l1 = [] ∧ lmEvents l2 = []) := by
  refine ⟨rfl, rfl, ?_⟩
  intro α n u dtv ys ygps
  refine ⟨?_, ?_, ?_, ?_, ?_, ?_⟩
  · by_cases h2 : n % lmModulus = 0 <;> by_cases h10 : n % gpsModulus = 0 <;>
      simp [iterFilterCalls, propCalls, lmCalls, gpsCalls, propEvents,
        h2, h10]
  · refine ⟨(if n % lmModulus = 0 then lmCalls ys else []) ++
      (if n % gpsModulus = 0 then gpsCalls ygps else []), ?_, ?_⟩
    · rw [iterFilterCalls, List.append_assoc]
    · by_cases h2 : n % lmModulus = 0 <;> by_cases h10 : n % gpsModulus = 0 <;>
        simp [lmCalls, gpsCalls, propEvents, h2, h10]
  · by_cases h2 : n % lmModulus = 0 <;> by_cases h10 : n % gpsModulus = 0 <;>
      simp [iterFilterCalls, propCalls, lmCalls, gpsCalls, lmEvents,
        h2, h10]
  · by_cases h2 : n % lmModulus = 0 <;> by_cases h10 : n % gpsModulus = 0 <;>
      simp [iterFilterCalls, propCalls, lmCalls, gpsCalls, gpsEvents,
        h2, h10]
  · intro hg
    by_cases h2 : n % lmModulus = 0
    · by_cases h10 : n % gpsModulus = 0 <;>
        simp [iterFilterCalls, propCalls, lmCalls, gpsCalls, lmEvents,
          h2, h10]
    · exfalso
      by_cases h10 : n % gpsModulus = 0
      · rw [lmModulus] at h2
        rw [gpsModulus] at h10
        omega
      · refine hg ?_
        simp [iterFilterCalls, propCalls, lmCalls, gpsCalls, gpsEvents,
          h2, h10]
  · refine ⟨propCalls u dtv ++
      (if n % lmModulus = 0 then lmCalls ys else []),
      (if n % gpsModulus = 0 then gpsCalls ygps else []), ?_, ?_, ?_⟩
    · rw [iterFilterCalls]
    · by_cases h2 : n % lmModulus = 0 <;>
        simp [propCalls, lmCalls, gpsEvents, h2]
    · by_cases h10 : n % gpsModulus = 0 <;>
        simp [gpsCalls, lmEvents, h10]

/-- C10 (witness): at tick `n = 20` the iteration performs the GPS
update and, as the claim requires, also the landmark updates. -/
theorem C10_update_schedule_witness :
    gpsEvents (iterFilterCalls 20 (fun _ => (0 : ℚ)) 0 (fun _ _ => 0)
      (fun _ => 0)) ≠ [] ∧
    lmEvents (iterFilterCalls 20 (fun _ => (0 : ℚ)) 0 (fun _ _ => 0)
      (fun _ => 0)) ≠ [] := by
  have h := C10_update_schedule.2.2 ℚ 20 (fun _ => 0) 0 (fun _ _ => 0)
    (fun _ => 0)
  have hg : gpsEvents (iterFilterCalls 20 (fun _ => (0 : ℚ)) 0
      (fun _ _ => 0) (fun _ => 0)) ≠ [] :=
    h.2.2.2.1.mpr (by norm_num [gpsModulus])
  exact ⟨hg, h.2.2.2.2.1 hg⟩

/-! ## The SE(3) state and the system model

The Lie-group primitives and the kalmanif filter classes live in the
library headers, which are not part of this source tree; the
specification treats them as an external contract (`Exp`, `Log`,
composition, inverse, action on a point) and gives the system model's
behaviour.  The following definitions model that missing part from
the specification. -/

/-- Modelled from the spec: the cross-product (hat) matrix `[v]ₓ` used
by the SE(3) exponential (Lie primitives are an external library
contract). -/
def skew (v : Fin 3 → ℝ) : Matrix (Fin 3) (Fin 3) ℝ :=
  ![![0, -v 2, v 1], ![v 2, 0, -v 0], ![-v 1, v 0, 0]]

/-- Modelled from the spec: the rotation angle `θ = ‖φ‖` of a
rotation tangent vector. -/
noncomputable def rotAngle (φ : Fin 3 → ℝ) : ℝ :=
  Real.sqrt (φ 0 ^ 2 + φ 1 ^ 2 + φ 2 ^ 2)

/-- Modelled from the spec: the SO(3) exponential (Rodrigues formula);
at `φ = 0` it is the identity rotation. -/
noncomputable def SO3exp (φ : Fin 3 → ℝ) : Matrix (Fin 3) (Fin 3) ℝ :=
  if φ = 0 then 1
  else
    1 + (Real.sin (rotAngle φ) / rotAngle φ) • skew φ +
      ((1 - Real.cos (rotAngle φ)) / rotAngle φ ^ 2) • (skew φ * skew φ)

/-- Modelled from the spec: the left Jacobian `V(φ)` of SO(3), which
maps the translational tangent component to the translation of
`Exp(ρ, φ)`; at `φ = 0` it is the identity. -/
noncomputable def SO3leftJ (φ : Fin 3 → ℝ) : Matrix (Fin 3) (Fin 3) ℝ :=
  if φ = 0 then 1
  else
    1 + ((1 - Real.cos (rotAngle φ)) / rotAngle φ ^ 2) • skew φ +
      ((rotAngle φ - Real.sin (rotAngle φ)) / rotAngle φ ^ 3) •
        (skew φ * skew φ)

/-- Modelled from the spec: an SE(3) element, a rotation together with
a translation (`X = [R t; 0 1]`). -/
structure SE3 where
  rot : Matrix (Fin 3) (Fin 3) ℝ
  tr : Fin 3 → ℝ

/-- Modelled from the spec: the identity pose. -/
def SE3.one : SE3 := ⟨1, 0⟩

/-- Modelled from the spec: SE(3) composition. -/
def SE3.mul (X Y : SE3) : SE3 :=
  ⟨X.rot * Y.rot, X.rot.mulVec Y.tr + X.tr⟩

/-- Modelled from the spec: SE(3) inverse. -/
def SE3.inv (X : SE3) : SE3 :=
  ⟨X.rotᵀ, -(X.rotᵀ.mulVec X.tr)⟩

/-- Modelled from the spec: the rigid action of a pose on a 3D point. -/
def SE3.act (X : SE3) (p : Fin 3 → ℝ) : Fin 3 → ℝ :=
  X.rot.mulVec p + X.tr

/-- Translational part of a tangent vector (components 0-2; the spec
fixes the order `(translation, rotation)`). -/
def rhoPart (ξ : Fin 6 → ℝ) : Fin 3 → ℝ := fun i => ξ (Fin.castAdd 3 i)

/-- Rotational part of a tangent vector (components 3-5). -/
def phiPart (ξ : Fin 6 → ℝ) : Fin 3 → ℝ := fun i => ξ (Fin.natAdd 3 i)

/-- Modelled from the spec: the SE(3) exponential
`Exp(ρ, φ) = (ExpSO3(φ), V(φ)ρ)`. -/
noncomputable def SE3.exp (ξ : Fin 6 → ℝ) : SE3 :=
  ⟨SO3exp (phiPart ξ), (SO3leftJ (phiPart ξ)).mulVec (rhoPart ξ)⟩

/-- Modelled from the spec: the vee map, inverse of the hat map on
antisymmetric matrices. -/
def vee (M : Matrix (Fin 3) (Fin 3) ℝ) : Fin 3 → ℝ := ![M 2 1, M 0 2, M 1 0]

/-- Modelled from the spec: the SO(3) logarithm, inverse of the
Rodrigues exponential — the angle is recovered from the trace and the
axis from the antisymmetric part; at the identity it is `0`. -/
noncomputable def SO3log (R : Matrix (Fin 3) (Fin 3) ℝ) : Fin 3 → ℝ :=
  let t := Real.arccos ((R 0 0 + R 1 1 + R 2 2 - 1) / 2)
  if t = 0 then 0 else (t / (2 * Real.sin t)) • vee (R - Rᵀ)

/-- Modelled from the spec: the SE(3) logarithm
`Log(R, t) = (V(φ)⁻¹ t, φ)` with `φ = LogSO3(R)`, inverse of
`Exp(ρ, φ) = (ExpSO3(φ), V(φ)ρ)`. -/
noncomputable def SE3.log (T : SE3) : Fin 6 → ℝ :=
  Fin.append ((SO3leftJ (SO3log T.rot))⁻¹.mulVec T.tr) (SO3log T.rot)

theorem skew_transpose (v : Fin 3 → ℝ) : (skew v)ᵀ = -skew v := by
  ext i j
  fin_cases i <;> fin_cases j <;> simp [skew]

theorem skew_cube (v : Fin 3 → ℝ) :
    skew v * skew v * skew v =
      -((v 0 ^ 2 + v 1 ^ 2 + v 2 ^ 2) • skew v) := by
  ext i j
  fin_cases i <;> fin_cases j <;>
    simp [skew, Matrix.mul_apply, Fin.sum_univ_three] <;> ring

theorem rot_orth_core (M : Matrix (Fin 3) (Fin 3) ℝ) (s c t : ℝ)
    (hMT : Mᵀ = -M) (hcube : M * M * M = -(t ^ 2 • M))
    (hkey : 2 * c - c * c * t ^ 2 - s * s = 0) :
    (1 + s • M + c • (M * M))ᵀ * (1 + s • M + c • (M * M)) = 1 := by
  have hT : (1 + s • M + c • (M * M))ᵀ = 1 + (-s) • M + c • (M * M) := by
    rw [Matrix.transpose_add, Matrix.transpose_add, Matrix.transpose_one,
      Matrix.transpose_smul, Matrix.transpose_smul, Matrix.transpose_mul, hMT,
      Matrix.neg_mul, Matrix.mul_neg, neg_neg, smul_neg, ← neg_smul]
  rw [hT]
  have h4 : M * M * M * M = -(t ^ 2 • (M * M)) := by
    calc M * M * M * M = -(t ^ 2 • M) * M := by rw [hcube]
    _ = -(t ^ 2 • (M * M)) := by rw [Matrix.neg_mul, Matrix.smul_mul]
  have expand : (1 + (-s) • M + c • (M * M)) * (1 + s • M + c • (M * M)) =
      1 + (-s + s) • M + (c + c + -s * s) • (M * M) +
        (-s * c + c * s) • (M * M * M) + (c * c) • (M * M * M * M) := by
    simp only [add_mul, mul_add, one_mul, mul_one, smul_mul_assoc,
      mul_smul_comm, smul_smul, ← Matrix.mul_assoc]
    module
  rw [expand, h4, hcube]
  have hz : -s * c + c * s = 0 := by ring
  have hz1 : -s + s = 0 := by ring
  have hz2 : c + c + -s * s - c * c * t ^ 2 = 0 := by linarith
  rw [hz, hz1, zero_smul, zero_smul, add_zero, add_zero, smul_neg, smul_smul,
    ← sub_eq_add_neg, add_sub_assoc,
    show (c + c + -s * s) • (M * M) - (c * c * t ^ 2) • (M * M) =
      (c + c + -s * s - c * c * t ^ 2) • (M * M) from (sub_smul _ _ _).symm,
    hz2, zero_smul, add_zero]

theorem rotAngle_sq (v : Fin 3 → ℝ) :
    rotAngle v ^ 2 = v 0 ^ 2 + v 1 ^ 2 + v 2 ^ 2 := by
  rw [rotAngle, Real.sq_sqrt]
  positivity

theorem rotAngle_pos (v : Fin 3 → ℝ) (h : v ≠ 0) : 0 < rotAngle v := by
  rw [rotAngle]
  apply Real.sqrt_pos.mpr
  obtain ⟨i, hi⟩ := Function.ne_iff.mp h
  simp only [Pi.zero_apply] at hi
  have hp := mul_self_pos.mpr hi
  have hcases : i = 0 ∨ i = 1 ∨ i = 2 := by fin_cases i <;> simp
  rcases hcases with rfl | rfl | rfl <;>
    nlinarith [sq_nonneg (v 0), sq_nonneg (v 1), sq_nonneg (v 2)]

theorem sincos_key (t : ℝ) (ht : t ≠ 0) :
    2 * ((1 - Real.cos t) / t ^ 2) -
      ((1 - Real.cos t) / t ^ 2) * ((1 - Real.cos t) / t ^ 2) * t ^ 2 -
      (Real.sin t / t) * (Real.sin t / t) = 0 := by
  have hsc := Real.sin_sq_add_cos_sq t
  field_simp
  linear_combination (-(t ^ 2 * t ^ 2 * t ^ 2)) * hsc

/-- The Rodrigues exponential is an orthogonal matrix, so the modelled
SE(3) elements built by `Exp` have genuine rotations. -/
theorem SO3exp_orthogonal (v : Fin 3 → ℝ) : (SO3exp v)ᵀ * SO3exp v = 1 := by
  by_cases hv : v = 0
  · rw [SO3exp, if_pos hv, Matrix.transpose_one, Matrix.one_mul]
  · rw [SO3exp, if_neg hv]
    refine rot_orth_core (skew v) _ _ (rotAngle v) (skew_transpose v) ?_ ?_
    · rw [skew_cube, rotAngle_sq]
    · exact sincos_key (rotAngle v) (ne_of_gt (rotAngle_pos v hv))

theorem rot_mul_orthogonal {A B : Matrix (Fin 3) (Fin 3) ℝ}
    (hA : Aᵀ * A = 1) (hB : Bᵀ * B = 1) : (A * B)ᵀ * (A * B) = 1 := by
  rw [Matrix.transpose_mul, Matrix.mul_assoc, ← Matrix.mul_assoc Aᵀ, hA,
    Matrix.one_mul, hB]

theorem SO3log_one : SO3log 1 = 0 := by
  rw [SO3log]
  norm_num [Matrix.one_apply, Real.arccos_one]

theorem append_zero_zero :
    Fin.append (0 : Fin 3 → ℝ) (0 : Fin 3 → ℝ) = (0 : Fin 6 → ℝ) := by
  funext j
  refine Fin.addCases (fun p => ?_) (fun p => ?_) j
  · rw [Fin.append_left]
    rfl
  · rw [Fin.append_right]
    rfl

theorem SE3.log_one : SE3.log SE3.one = 0 := by
  rw [SE3.log, show SE3.one.rot = 1 from rfl, show SE3.one.tr = 0 from rfl,
    SO3log_one, Matrix.mulVec_zero, append_zero_zero]

theorem SE3.exp_zero : SE3.exp 0 = SE3.one := by
  rw [SE3.exp, show phiPart 0 = 0 from rfl, show rhoPart 0 = 0 from rfl,
    SO3exp, if_pos rfl, SO3leftJ, if_pos rfl, Matrix.mulVec_zero]
  rfl

theorem SE3.mul_one (X : SE3) : X.mul SE3.one = X := by
  cases X
  simp [SE3.mul, SE3.one, Matrix.mulVec_zero]

theorem SE3.inv_mul (X : SE3) (hX : X.rotᵀ * X.rot = 1) :
    X.inv.mul X = SE3.one := by
  cases X
  simp_all [SE3.mul, SE3.inv, SE3.one]

/-- Modelled from the spec: the system model (`LieSystemModel`): it
holds the process-noise covariance set by `setCovariance(U)` and,
evaluated at a pose and an integrated control, returns
`X' = X · Exp(u)`.  The model is pure, so evaluation returns the model
unchanged. -/
structure LieSystemModel where
  cov : Matrix (Fin 6) (Fin 6) ℝ

/-- Modelled from the spec: evaluating the system model
(`system_model(X, u)`), returning the advanced pose and the model
object after the call. -/
noncomputable def LieSystemModel.call (m : LieSystemModel) (X : SE3)
    (u : Fin 6 → ℝ) : SE3 × LieSystemModel :=
  (X.mul (SE3.exp u), m)

/-- The demo's sharing pattern: one `system_model` instance is used in
sequence by the simulator, the four filters and the unfiltered
propagation; each use threads the instance on to the next. -/
noncomputable def sharedUses (m : LieSystemModel) :
    List (SE3 × (Fin 6 → ℝ)) → List SE3 × LieSystemModel
  | [] => ([], m)
  | (X, u) :: rest =>
    let r := m.call X u
    let rr := sharedUses r.2 rest
    (r.1 :: rr.1, rr.2)

/-- C5: the system model performs no state mutation: a single
instance, configured once before the loop, can be shared by the
simulator, the unfiltered propagation and all four filters; every
evaluation returns the instance unchanged, the result of each use in a
shared sequence equals the result of an independent evaluation, and
evaluating at one pose never changes the behaviour at another. -/
theorem C5_system_model_is_pure :
    ∀ (m : LieSystemModel) (X Y : SE3) (u v : Fin 6 → ℝ)
      (uses : List (SE3 × (Fin 6 → ℝ))),
      (m.call X u).2 = m ∧
      ((m.call Y v).2.call X u).1 = (m.call X u).1 ∧
      (m.call X u).1 = X.mul (SE3.exp u) ∧
      (sharedUses m uses).2 = m ∧
      (sharedUses m uses).1 = uses.map fun p => (m.call p.1 p.2).1 := by
  intro m X Y u v uses
  refine ⟨rfl, rfl, rfl, ?_, ?_⟩
  · induction uses with
    | nil => rfl
    | cons p rest ih => simpa [sharedUses, LieSystemModel.call] using ih
  · induction uses with
    | nil => rfl
    | cons p rest ih => simpa [sharedUses, LieSystemModel.call] using ih

/-! ## Transactional failure handling -/

/-- Symmetrisation `P ← ½ (P + Pᵀ)`. -/
noncomputable def symmetrize {n : Type} [Fintype n] (P : Matrix n n ℝ) : Matrix n n ℝ :=
  (1/2 : ℝ) • (P + Pᵀ)


/-- Modelled from the spec: a filter's caller-visible state, the pose
and the covariance. -/
structure FilterState where
  X : SE3
  P : Matrix (Fin 6) (Fin 6) ℝ

/-- Modelled from the spec: the outcome a filter operation surfaces to
the driver. -/
inductive FilterOutcome where
  | ok
  | numericalFailure
  deriving DecidableEq

/-- Modelled from the spec: the Joseph-form covariance update
`(I − KH) P (I − KH)ᵀ + K R Kᵀ`. -/
def josephUpdate (K : Matrix (Fin 6) (Fin 3) ℝ)
    (H : Matrix (Fin 3) (Fin 6) ℝ) (P : Matrix (Fin 6) (Fin 6) ℝ)
    (Rm : Matrix (Fin 3) (Fin 3) ℝ) : Matrix (Fin 6) (Fin 6) ℝ :=
  (1 - K * H) * P * (1 - K * H)ᵀ + K * Rm * Kᵀ

/-- Modelled from the spec: a filter update with the transactional
failure policy.  The innovation covariance `S = H P Hᵀ + R` is
factorised (Cholesky); if it is not positive definite the operation
reports `numerical-failure` and leaves the filter state exactly as it
was, with no retry; otherwise the gain `K = P Hᵀ S⁻¹` is applied,
`X ← X · Exp(Kν)`, and the covariance is updated in Joseph form. -/
noncomputable def tryUpdate (st : FilterState) (h : SE3 → Fin 3 → ℝ)
    (H : Matrix (Fin 3) (Fin 6) ℝ) (Rm : Matrix (Fin 3) (Fin 3) ℝ)
    (z : Fin 3 → ℝ) : FilterOutcome × FilterState :=
  @ite _ (H * st.P * Hᵀ + Rm).PosDef (Classical.propDecidable _)
    (let K := st.P * Hᵀ * (H * st.P * Hᵀ + Rm)⁻¹
     (.ok, ⟨st.X.mul (SE3.exp (K.mulVec (z - h st.X))),
       josephUpdate K H st.P Rm⟩))
    (.numericalFailure, st)

/-- Modelled from the spec: a filter propagate with the transactional
failure policy.  The step begins by factorising the current covariance
(the Cholesky factor feeds the sigma points / the square-root form);
if the factorisation breaks down — the covariance is not positive
definite — the operation reports `numerical-failure` and leaves the
filter state exactly as it was, with no retry; otherwise
`X ← X · Exp(u)` through the system model and
`P ← F P Fᵀ + Q_eff`, symmetrised. -/
noncomputable def tryPropagate (st : FilterState) (m : LieSystemModel)
    (F : Matrix (Fin 6) (Fin 6) ℝ) (u : Fin 6 → ℝ) :
    FilterOutcome × FilterState :=
  @ite _ st.P.PosDef (Classical.propDecidable _)
    (.ok, ⟨(m.call st.X u).1, symmetrize (F * st.P * Fᵀ + m.cov)⟩)
    (.numericalFailure, st)

/-- C7: when a propagate or an update fails numerically (the
covariance handed to the propagate's factorisation, or the innovation
covariance of the update, is not positive definite, so the
Cholesky/QR factorisation breaks down), the filter surfaces a
numerical-failure signal and leaves both its state and its covariance
exactly as they were before the offending operation (transactional
update); and in every case either the state is untouched or the
operation succeeded — there is no internal retry or partial
mutation. -/
theorem C7_transactional_failure :
    ∀ (st : FilterState) (m : LieSystemModel)
      (F : Matrix (Fin 6) (Fin 6) ℝ) (u : Fin 6 → ℝ)
      (h : SE3 → Fin 3 → ℝ) (H : Matrix (Fin 3) (Fin 6) ℝ)
      (Rm : Matrix (Fin 3) (Fin 3) ℝ) (z : Fin 3 → ℝ),
      (¬ st.P.PosDef →
        tryPropagate st m F u = (.numericalFailure, st)) ∧
      ((tryPropagate st m F u).2 = st ∨
        (tryPropagate st m F u).1 = .ok) ∧
      (¬ (H * st.P * Hᵀ + Rm).PosDef →
        tryUpdate st h H Rm z = (.numericalFailure, st)) ∧
      ((tryUpdate st h H Rm z).2 = st ∨
        (tryUpdate st h H Rm z).1 = .ok) := by
  intro st m F u h H Rm z
  refine ⟨?_, ?_, ?_, ?_⟩
  · intro hnp
    rw [tryPropagate, if_neg hnp]
  · by_cases hp : st.P.PosDef
    · right
      rw [tryPropagate, if_pos hp]
    · left
      rw [tryPropagate, if_neg hp]
  · intro hnp
    rw [tryUpdate, if_neg hnp]
  · by_cases hp : (H * st.P * Hᵀ + Rm).PosDef
    · right
      rw [tryUpdate, if_pos hp]
    · left
      rw [tryUpdate, if_neg hp]

/-- C7 (witness): with the zero covariance both factorisations break
down — the propagate's Cholesky of `P = 0` and the update's innovation
covariance `0` — and both operations leave the filter untouched while
reporting the failure. -/
theorem C7_transactional_failure_witness :
    tryPropagate ⟨SE3.one, 0⟩ ⟨1⟩ 1 0 =
      (.numericalFailure, ⟨SE3.one, 0⟩) ∧
    tryUpdate ⟨SE3.one, 0⟩ (fun _ _ => 0) 0 0 0 =
      (.numericalFailure, ⟨SE3.one, 0⟩) := by
  have hnp6 : ¬ ((⟨SE3.one, 0⟩ : FilterState).P).PosDef := by
    intro hpd
    have hx : (fun _ => (1 : ℝ) : Fin 6 → ℝ) ≠ 0 := by
      intro hc
      exact one_ne_zero (congrFun hc 0)
    have hlt := hpd.2 _ hx
    simp [Matrix.mulVec_zero] at hlt
  have hnp3 : ¬ ((0 : Matrix (Fin 3) (Fin 6) ℝ) *
      (⟨SE3.one, 0⟩ : FilterState).P * (0 : Matrix (Fin 3) (Fin 6) ℝ)ᵀ +
      0).PosDef := by
    intro hpd
    have hx : (fun _ => (1 : ℝ) : Fin 3 → ℝ) ≠ 0 := by
      intro hc
      exact one_ne_zero (congrFun hc 0)
    have hlt := hpd.2 _ hx
    simp [Matrix.zero_mul, Matrix.mul_zero] at hlt
  exact ⟨(C7_transactional_failure ⟨SE3.one, 0⟩ ⟨1⟩ 1 0 (fun _ _ => 0) 0 0
      0).1 hnp6,
    (C7_transactional_failure ⟨SE3.one, 0⟩ ⟨1⟩ 1 0 (fun _ _ => 0) 0 0
      0).2.2.1 hnp3⟩

/-! ## UKFM sigma-point machinery -/

/-- Index set of the `2n+1 = 13` sigma points: `none` is the centre
point, `some (sign, j)` the point built from column `j` of the
covariance factor with the given sign. -/
abbrev SigIx := Option (Bool × Fin 6)

/-- Modelled from the spec: the UKFM scaling `λ = α²(n+κ) − n` with
`n = 6`. -/
noncomputable def ukfLam (a k : ℝ) : ℝ := a ^ 2 * (6 + k) - 6

/-- Modelled from the spec: the sigma-point spread `√(n+λ)`. -/
noncomputable def ukfScale (a k : ℝ) : ℝ := Real.sqrt (6 + ukfLam a k)

/-- Modelled from the spec: the mean weights, `w_m⁰ = λ/(n+λ)` and
`w_m^i = 1/(2(n+λ))`. -/
noncomputable def ukfWm (a b k : ℝ) : SigIx → ℝ
  | none => ukfLam a k / (6 + ukfLam a k)
  | some _ => 1 / (2 * (6 + ukfLam a k))

/-- Modelled from the spec: the covariance weights,
`w_c⁰ = w_m⁰ + (1 − α² + β)` and `w_c^i = 1/(2(n+λ))`. -/
noncomputable def ukfWc (a b k : ℝ) : SigIx → ℝ
  | none => ukfLam a k / (6 + ukfLam a k) + (1 - a ^ 2 + b)
  | some _ => 1 / (2 * (6 + ukfLam a k))

/-- Modelled from the spec: the tangent offsets that generate the
sigma points, `0` for the centre and `±√(n+λ) · L_j` (column `j` of
the factor `L` with `P = Lᵀ L`) for the others. -/
noncomputable def sigmaOffset (L : Matrix (Fin 6) (Fin 6) ℝ) (a k : ℝ) :
    SigIx → Fin 6 → ℝ
  | none => 0
  | some (s, j) =>
    (if s then ukfScale a k else -ukfScale a k) • fun r => L r j

/-- Modelled from the spec: the sigma points on the manifold,
`χ_i = X · Exp(δ_i)`. -/
noncomputable def sigmaPoint (X : SE3) (L : Matrix (Fin 6) (Fin 6) ℝ)
    (a k : ℝ) (i : SigIx) : SE3 :=
  X.mul (SE3.exp (sigmaOffset L a k i))

/-- Modelled from the spec: the predicted measurement mean
`ẑ = Σ w_m^i z_i` with `z_i = h(χ_i)`. -/
noncomputable def ukfmZhat (X : SE3) (L : Matrix (Fin 6) (Fin 6) ℝ)
    (a b k : ℝ) (h : SE3 → Fin 3 → ℝ) : Fin 3 → ℝ :=
  ∑ i : SigIx, ukfWm a b k i • h (sigmaPoint X L a k i)

/-- Modelled from the spec: the innovation covariance
`P_zz = Σ w_c^i (z_i − ẑ)(z_i − ẑ)ᵀ + R`. -/
noncomputable def ukfmPzz (X : SE3) (L : Matrix (Fin 6) (Fin 6) ℝ)
    (a b k : ℝ) (h : SE3 → Fin 3 → ℝ) (Rm : Matrix (Fin 3) (Fin 3) ℝ) :
    Matrix (Fin 3) (Fin 3) ℝ :=
  (∑ i : SigIx, ukfWc a b k i •
    Matrix.vecMulVec (h (sigmaPoint X L a k i) - ukfmZhat X L a b k h)
      (h (sigmaPoint X L a k i) - ukfmZhat X L a b k h)) + Rm

/-- Modelled from the spec: the cross covariance
`P_xz = Σ w_c^i δ_i (z_i − ẑ)ᵀ`. -/
noncomputable def ukfmPxz (X : SE3) (L : Matrix (Fin 6) (Fin 6) ℝ)
    (a b k : ℝ) (h : SE3 → Fin 3 → ℝ) : Matrix (Fin 6) (Fin 3) ℝ :=
  ∑ i : SigIx, ukfWc a b k i •
    Matrix.vecMulVec (sigmaOffset L a k i)
      (h (sigmaPoint X L a k i) - ukfmZhat X L a b k h)

/-- Modelled from the spec: the UKFM gain `K = P_xz P_zz⁻¹`. -/
noncomputable def ukfmGain (X : SE3) (L : Matrix (Fin 6) (Fin 6) ℝ)
    (a b k : ℝ) (h : SE3 → Fin 3 → ℝ) (Rm : Matrix (Fin 3) (Fin 3) ℝ) :
    Matrix (Fin 6) (Fin 3) ℝ :=
  ukfmPxz X L a b k h * (ukfmPzz X L a b k h Rm)⁻¹

/-- Modelled from the spec: the UKFM update of the covariance,
`P ← P − K P_zz Kᵀ`, then symmetrise. -/
noncomputable def ukfmUpdateCov (X : SE3) (P L : Matrix (Fin 6) (Fin 6) ℝ)
    (a b k : ℝ) (h : SE3 → Fin 3 → ℝ) (Rm : Matrix (Fin 3) (Fin 3) ℝ) :
    Matrix (Fin 6) (Fin 6) ℝ :=
  symmetrize
    (P - ukfmGain X L a b k h Rm * ukfmPzz X L a b k h Rm *
      (ukfmGain X L a b k h Rm)ᵀ)

/-- Modelled from the spec: the tangent residuals of the UKFM
propagate.  Each sigma point is pushed through the system model,
`χ'_i = χ_i · Exp(u)`; the propagated mean is the centre point's
transition `X' = χ_0 · Exp(u)` (the spec's fast variant, which treats
the centre point's transition as the mean); the residual is
`δ_i = Log(X'⁻¹ · χ'_i)`. -/
noncomputable def ukfmPropResidual (X : SE3) (L : Matrix (Fin 6) (Fin 6) ℝ)
    (a k : ℝ) (u : Fin 6 → ℝ) (i : SigIx) : Fin 6 → ℝ :=
  SE3.log ((((sigmaPoint X L a k none).mul (SE3.exp u)).inv).mul
    ((sigmaPoint X L a k i).mul (SE3.exp u)))

/-- Modelled from the spec: the UKFM propagated covariance
`P ← Σ w_c^i δ_i δ_iᵀ + Q_eff` over the pushed-through tangent
residuals `δ_i = Log(X'⁻¹ · χ'_i)`, then symmetrise. -/
noncomputable def ukfmPropagateCov (X : SE3) (L : Matrix (Fin 6) (Fin 6) ℝ)
    (a b k : ℝ) (u : Fin 6 → ℝ) (Qeff : Matrix (Fin 6) (Fin 6) ℝ) :
    Matrix (Fin 6) (Fin 6) ℝ :=
  symmetrize
    ((∑ i : SigIx, ukfWc a b k i •
      Matrix.vecMulVec (ukfmPropResidual X L a k u i)
        (ukfmPropResidual X L a k u i)) + Qeff)

theorem sigmaPoint_none (X : SE3) (L : Matrix (Fin 6) (Fin 6) ℝ)
    (a k : ℝ) : sigmaPoint X L a k none = X := by
  rw [sigmaPoint, show sigmaOffset L a k none = 0 from rfl, SE3.exp_zero,
    SE3.mul_one]

/-- The centre residual of the propagate vanishes: the mean is the
centre point's own transition, so `δ_0 = Log(X'⁻¹ X') = Log(1) = 0`. -/
theorem ukfmPropResidual_none (X : SE3) (L : Matrix (Fin 6) (Fin 6) ℝ)
    (a k : ℝ) (u : Fin 6 → ℝ) (hX : X.rotᵀ * X.rot = 1) :
    ukfmPropResidual X L a k u none = 0 := by
  rw [ukfmPropResidual, sigmaPoint_none]
  have horth : (X.mul (SE3.exp u)).rotᵀ * (X.mul (SE3.exp u)).rot = 1 :=
    rot_mul_orthogonal hX (SO3exp_orthogonal (phiPart u))
  rw [SE3.inv_mul _ horth, SE3.log_one]


/-! ## A concrete UKFM update that loses positive semidefiniteness -/

theorem SE3.one_mul (Y : SE3) : SE3.one.mul Y = Y := by
  cases Y
  simp [SE3.mul, SE3.one, Matrix.one_mulVec]

theorem SE3.exp_translation (xi : Fin 6 → ℝ) (hphi : phiPart xi = 0) :
    SE3.exp xi = ⟨1, rhoPart xi⟩ := by
  rw [SE3.exp, hphi, SO3exp, if_pos rfl, SO3leftJ, if_pos rfl,
    Matrix.one_mulVec]

/-- The factor (and covariance) of the counterexample: the PSD
diagonal matrix with ones on the translation block and zeros on the
rotation block. -/
noncomputable def cexL : Matrix (Fin 6) (Fin 6) ℝ :=
  Matrix.diagonal (fun i => if (i : ℕ) < 3 then 1 else 0)

/-- The measurement function of the counterexample: a polynomial test
function of the translation, conforming to the measurement-model
capability set `value(X) ∈ R³` that the UKFM requires. -/
noncomputable def cexH : SE3 → Fin 3 → ℝ := fun Y c =>
  if c = 0 then
    4/5 + Y.tr 0 + (Y.tr 0) ^ 2 / 5 - 4/5 * ((Y.tr 1) ^ 2 + (Y.tr 2) ^ 2)
  else 0

/-- The measurement covariance of the counterexample, `R = 0.01·I`. -/
noncomputable def cexR : Matrix (Fin 3) (Fin 3) ℝ :=
  Matrix.diagonal (fun _ => 1/100)

theorem cex_lam : ukfLam 1 (-5) = -5 := by
  rw [ukfLam]
  norm_num

theorem cex_lamsum : (6 : ℝ) + ukfLam 1 (-5) = 1 := by
  rw [cex_lam]
  norm_num

theorem cex_scale : ukfScale 1 (-5) = 1 := by
  rw [ukfScale, cex_lamsum, Real.sqrt_one]

theorem cex_wm0 : ukfWm 1 0 (-5) none = -5 := by
  rw [ukfWm, cex_lamsum, cex_lam]
  norm_num

theorem cex_wmi (p : Bool × Fin 6) : ukfWm 1 0 (-5) (some p) = 1/2 := by
  rw [ukfWm, cex_lamsum]
  norm_num

theorem cex_wc0 : ukfWc 1 0 (-5) none = -5 := by
  rw [ukfWc, cex_lamsum, cex_lam]
  norm_num

theorem cex_wci (p : Bool × Fin 6) : ukfWc 1 0 (-5) (some p) = 1/2 := by
  rw [ukfWc, cex_lamsum]
  norm_num

/-- The sigma offsets of the counterexample in closed form. -/
noncomputable def cexOff : SigIx → Fin 6 → ℝ
  | none => 0
  | some (s, j) =>
    fun r => if r = j ∧ (j : ℕ) < 3 then (if s then 1 else -1) else 0

theorem cex_off : ∀ i, sigmaOffset cexL 1 (-5) i = cexOff i := by
  intro i
  rcases i with _ | ⟨s, j⟩
  · rfl
  · funext r
    simp only [sigmaOffset, cex_scale, cexOff, Pi.smul_apply, smul_eq_mul,
      cexL, Matrix.diagonal_apply]
    by_cases hrj : r = j
    · subst hrj
      by_cases h3 : (r : ℕ) < 3
      · simp only [if_pos rfl, if_pos h3,
          if_pos (⟨rfl, h3⟩ : r = r ∧ (r : ℕ) < 3)]
        cases s <;> simp [h3]
      · simp only [if_pos rfl, if_neg h3,
          if_neg (fun hc : r = r ∧ (r : ℕ) < 3 => h3 hc.2)]
        cases s <;> simp [h3]
    · simp only [if_neg hrj,
        if_neg (fun hc : r = j ∧ (j : ℕ) < 3 => hrj hc.1)]
      cases s <;> norm_num

theorem cex_phi (i : SigIx) : phiPart (cexOff i) = 0 := by
  rcases i with _ | ⟨s, j⟩
  · rfl
  · funext r
    simp only [phiPart, cexOff, Pi.zero_apply]
    rw [if_neg]
    rintro ⟨he, hj⟩
    rw [Fin.ext_iff, Fin.coe_natAdd] at he
    omega

theorem cex_tr (i : SigIx) :
    (sigmaPoint SE3.one cexL 1 (-5) i).tr = rhoPart (cexOff i) := by
  rw [sigmaPoint, cex_off i, SE3.exp_translation _ (cex_phi i), SE3.one_mul]


/-- The measurement values at the thirteen sigma points, in closed
form. -/
noncomputable def cexZ : SigIx → Fin 3 → ℝ
  | none => fun c => if c = 0 then 4/5 else 0
  | some (s, j) =>
    fun c =>
      if c = 0 then
        if (j : ℕ) = 0 then (if s then 2 else 0)
        else if (j : ℕ) < 3 then 0 else 4/5
      else 0

theorem cex_z (i : SigIx) :
    cexH (sigmaPoint SE3.one cexL 1 (-5) i) = cexZ i := by
  have htr := cex_tr i
  funext c
  rcases i with _ | ⟨s, j⟩
  · simp only [cexH, htr, cexZ, rhoPart, cexOff, Pi.zero_apply]
    norm_num
  · simp only [cexH, htr, cexZ, rhoPart, cexOff]
    fin_cases j <;> cases s <;> fin_cases c <;>
      simp <;> norm_num [Fin.ext_iff]


theorem sum_sigIx {M : Type} [AddCommMonoid M] (f : SigIx → M) :
    ∑ i : SigIx, f i =
      f none + ((∑ j : Fin 6, f (some (true, j))) +
        (∑ j : Fin 6, f (some (false, j)))) := by
  rw [univ_option, Finset.sum_insertNone, Fintype.sum_prod_type,
    Fintype.sum_bool]

theorem cex_zhat :
    ukfmZhat SE3.one cexL 1 0 (-5) cexH =
      fun c => if c = 0 then -(3/5) else 0 := by
  funext c
  rw [ukfmZhat]
  simp only [Finset.sum_apply, Pi.smul_apply, smul_eq_mul, cex_z]
  rw [sum_sigIx (fun i => ukfWm 1 0 (-5) i * cexZ i c)]
  simp only [cex_wm0, cex_wmi, Fin.sum_univ_six]
  fin_cases c <;>
    simp [cexZ, show ((0 : Fin 6) : ℕ) = 0 from rfl,
      show ((1 : Fin 6) : ℕ) = 1 from rfl,
      show ((2 : Fin 6) : ℕ) = 2 from rfl,
      show ((3 : Fin 6) : ℕ) = 3 from rfl,
      show ((4 : Fin 6) : ℕ) = 4 from rfl,
      show ((5 : Fin 6) : ℕ) = 5 from rfl] <;>
    norm_num


theorem cex_Pzz :
    ukfmPzz SE3.one cexL 1 0 (-5) cexH cexR =
      Matrix.diagonal ![37/100, 1/100, 1/100] := by
  ext c d
  rw [ukfmPzz]
  simp only [Matrix.add_apply, Matrix.sum_apply, Matrix.smul_apply,
    smul_eq_mul, Matrix.vecMulVec_apply, Pi.sub_apply, cex_z, cex_zhat]
  rw [sum_sigIx]
  simp only [cex_wc0, cex_wci, Fin.sum_univ_six]
  fin_cases c <;> fin_cases d <;>
    simp [cexZ, cexR, Matrix.diagonal_apply,
      show ((0 : Fin 6) : ℕ) = 0 from rfl,
      show ((1 : Fin 6) : ℕ) = 1 from rfl,
      show ((2 : Fin 6) : ℕ) = 2 from rfl,
      show ((3 : Fin 6) : ℕ) = 3 from rfl,
      show ((4 : Fin 6) : ℕ) = 4 from rfl,
      show ((5 : Fin 6) : ℕ) = 5 from rfl] <;>
    norm_num

theorem cex_PzzInv :
    (ukfmPzz SE3.one cexL 1 0 (-5) cexH cexR)⁻¹ =
      Matrix.diagonal ![100/37, 100, 100] := by
  rw [cex_Pzz]
  refine Matrix.inv_eq_right_inv ?_
  rw [Matrix.diagonal_mul_diagonal]
  have hfun : (fun i => ![(37 : ℝ)/100, 1/100, 1/100] i *
      ![100/37, 100, 100] i) = fun _ : Fin 3 => (1 : ℝ) := by
    funext i
    fin_cases i <;> norm_num
  rw [hfun, Matrix.diagonal_one]

theorem cex_Pxz_row0 :
    ∀ c : Fin 3, ukfmPxz SE3.one cexL 1 0 (-5) cexH 0 c =
      if c = 0 then 1 else 0 := by
  intro c
  rw [ukfmPxz]
  simp only [Matrix.sum_apply, Matrix.smul_apply, smul_eq_mul,
    Matrix.vecMulVec_apply, Pi.sub_apply, cex_z, cex_zhat, cex_off]
  rw [sum_sigIx]
  simp only [cex_wc0, cex_wci, Fin.sum_univ_six]
  fin_cases c <;>
    simp [cexZ, cexOff, Fin.ext_iff,
      show ((0 : Fin 6) : ℕ) = 0 from rfl,
      show ((1 : Fin 6) : ℕ) = 1 from rfl,
      show ((2 : Fin 6) : ℕ) = 2 from rfl,
      show ((3 : Fin 6) : ℕ) = 3 from rfl,
      show ((4 : Fin 6) : ℕ) = 4 from rfl,
      show ((5 : Fin 6) : ℕ) = 5 from rfl] <;>
    norm_num

theorem cex_gain_row0 :
    ∀ c : Fin 3, ukfmGain SE3.one cexL 1 0 (-5) cexH cexR 0 c =
      if c = 0 then 100/37 else 0 := by
  intro c
  rw [ukfmGain, Matrix.mul_apply, cex_PzzInv]
  simp only [cex_Pxz_row0]
  fin_cases c <;>
    simp [Fin.sum_univ_three, Matrix.diagonal_apply] <;> norm_num

theorem cex_M00 :
    ukfmUpdateCov SE3.one cexL cexL 1 0 (-5) cexH cexR 0 0 = -(63/37) := by
  rw [ukfmUpdateCov, symmetrize]
  simp only [Matrix.smul_apply, Matrix.add_apply, Matrix.transpose_apply,
    Matrix.sub_apply, smul_eq_mul]
  have hKPK : (ukfmGain SE3.one cexL 1 0 (-5) cexH cexR *
      ukfmPzz SE3.one cexL 1 0 (-5) cexH cexR *
      (ukfmGain SE3.one cexL 1 0 (-5) cexH cexR)ᵀ) 0 0 = 100/37 := by
    rw [Matrix.mul_apply]
    simp only [Matrix.transpose_apply, Matrix.mul_apply, cex_Pzz,
      cex_gain_row0, Fin.sum_univ_three, Matrix.diagonal_apply]
    norm_num [Fin.ext_iff,
      show ((0 : Fin 3) : ℕ) = 0 from rfl,
      show ((1 : Fin 3) : ℕ) = 1 from rfl,
      show ((2 : Fin 3) : ℕ) = 2 from rfl]
  rw [hKPK]
  simp [cexL, Matrix.diagonal_apply]
  norm_num


/-- C6 (counterexample): a single UKFM update, run through the spec's
sigma-point pipeline on SE(3) at the identity pose with the valid PSD
covariance `P = L = diag(1,1,1,0,0,0)`, the spec's weights at the
tuning parameters `(α, β, κ) = (1, 0, −5)` (giving `w_c⁰ = −5`), a
polynomial measurement function and `R = 0.01·I`, returns a covariance
whose `(0,0)` entry is `−63/37`: the result of `getCovariance()` after
this update is not positive semidefinite. -/
theorem C6_counterexample_ukfm_update_not_psd :
    cexL.PosSemidef ∧ cexLᵀ * cexL = cexL ∧ cexR.PosSemidef ∧
    ¬ (ukfmUpdateCov SE3.one cexL cexL 1 0 (-5) cexH cexR).PosSemidef := by
  refine ⟨?_, ?_, ?_, ?_⟩
  · refine Matrix.PosSemidef.diagonal ?_
    intro i
    dsimp only
    split_ifs <;> norm_num
  · rw [cexL, Matrix.diagonal_transpose, Matrix.diagonal_mul_diagonal]
    have hfun : (fun i : Fin 6 =>
        (if (i : ℕ) < 3 then (1 : ℝ) else 0) *
          (if (i : ℕ) < 3 then 1 else 0)) =
        fun i : Fin 6 => if (i : ℕ) < 3 then (1 : ℝ) else 0 := by
      funext i
      split_ifs <;> norm_num
    rw [hfun]
  · exact Matrix.PosSemidef.diagonal fun i => by norm_num
  · intro hpsd
    have hq := hpsd.2 (Pi.single 0 1)
    simp only [Matrix.mulVec, Matrix.dotProduct, Pi.star_apply, star_trivial,
      Pi.single_apply, Fin.sum_univ_six, mul_ite, ite_mul, one_mul,
      mul_one, zero_mul, mul_zero] at hq
    norm_num [cex_M00, Fin.ext_iff,
      show ((0 : Fin 6) : ℕ) = 0 from rfl,
      show ((1 : Fin 6) : ℕ) = 1 from rfl,
      show ((2 : Fin 6) : ℕ) = 2 from rfl,
      show ((3 : Fin 6) : ℕ) = 3 from rfl,
      show ((4 : Fin 6) : ℕ) = 4 from rfl,
      show ((5 : Fin 6) : ℕ) = 5 from rfl] at hq

/-! ## Covariance shape of the four filters -/

/-- Modelled from the spec: the EKF propagated covariance,
`P ← F P Fᵀ + W Q Wᵀ`, then symmetrise. -/
noncomputable def ekfPropagateCov (F W Q P : Matrix (Fin 6) (Fin 6) ℝ) :
    Matrix (Fin 6) (Fin 6) ℝ :=
  symmetrize (F * P * Fᵀ + W * Q * Wᵀ)

/-- Modelled from the spec: the EKF measurement update of the
covariance in Joseph form, then symmetrise. -/
noncomputable def ekfUpdateCov (K : Matrix (Fin 6) (Fin 3) ℝ)
    (H : Matrix (Fin 3) (Fin 6) ℝ) (Rm : Matrix (Fin 3) (Fin 3) ℝ)
    (P : Matrix (Fin 6) (Fin 6) ℝ) : Matrix (Fin 6) (Fin 6) ℝ :=
  symmetrize (josephUpdate K H P Rm)

/-- Modelled from the spec: the IEKF propagated covariance,
`P ← F P Fᵀ + Q_eff` (the invariant-frame process noise added after
the transport), then symmetrise; its update uses the Joseph form as in
the EKF. -/
noncomputable def iekfPropagateCov (F Qeff P : Matrix (Fin 6) (Fin 6) ℝ) :
    Matrix (Fin 6) (Fin 6) ℝ :=
  symmetrize (F * P * Fᵀ + Qeff)

/-- Modelled from the spec: the covariance the SEKF's
`getCovariance()` materialises from its triangular factor, `Sᵀ S`. -/
noncomputable def sekfCovariance (S : Matrix (Fin 6) (Fin 6) ℝ) :
    Matrix (Fin 6) (Fin 6) ℝ :=
  Sᵀ * S

theorem symmetrize_transpose {n : Type} [Fintype n] (P : Matrix n n ℝ) :
    (symmetrize P)ᵀ = symmetrize P := by
  rw [symmetrize, Matrix.transpose_smul, Matrix.transpose_add,
    Matrix.transpose_transpose, add_comm Pᵀ P]

theorem symmetrize_of_symm {n : Type} [Fintype n] {P : Matrix n n ℝ}
    (h : Pᵀ = P) : symmetrize P = P := by
  rw [symmetrize, h, smul_add, ← add_smul]
  norm_num

theorem transpose_of_psd {n : Type} [Fintype n] {P : Matrix n n ℝ}
    (h : P.PosSemidef) : Pᵀ = P := by
  have h1 := h.1
  rwa [Matrix.IsHermitian, Matrix.conjTranspose_eq_transpose_of_trivial] at h1

theorem psd_mul_mul_transpose {n m : Type} [Fintype n] [Fintype m]
    {P : Matrix n n ℝ} (A : Matrix m n ℝ) (hP : P.PosSemidef) :
    (A * P * Aᵀ).PosSemidef := by
  have h := hP.mul_mul_conjTranspose_same A
  rwa [Matrix.conjTranspose_eq_transpose_of_trivial] at h

theorem symmetrize_psd {n : Type} [Fintype n] {P : Matrix n n ℝ}
    (h : P.PosSemidef) : (symmetrize P).PosSemidef := by
  rwa [symmetrize_of_symm (transpose_of_psd h)]

theorem psd_smul {p : Type} [Fintype p] [DecidableEq p]
    {P : Matrix p p ℝ} (c : ℝ) (hc : 0 ≤ c) (hP : P.PosSemidef) :
    (c • P).PosSemidef := by
  have h := psd_mul_mul_transpose (Real.sqrt c • (1 : Matrix p p ℝ)) hP
  rwa [Matrix.transpose_smul, Matrix.transpose_one, Matrix.smul_mul,
    Matrix.mul_smul, Matrix.one_mul, Matrix.mul_one, smul_smul,
    Real.mul_self_sqrt hc] at h

theorem psd_vecMulVec {p : Type} [Fintype p] (v : p → ℝ) :
    (Matrix.vecMulVec v v).PosSemidef := by
  have h := Matrix.posSemidef_conjTranspose_mul_self (Matrix.row Unit v)
  rwa [Matrix.conjTranspose_eq_transpose_of_trivial, Matrix.transpose_row,
    ← Matrix.vecMulVec_eq Unit] at h

theorem psd_sum {ι p : Type} [Fintype ι] [Fintype p]
    (f : ι → Matrix p p ℝ) (hf : ∀ i, (f i).PosSemidef) :
    (∑ i, f i).PosSemidef :=
  Finset.sum_induction f _ (fun _ _ ha hb => ha.add hb)
    Matrix.PosSemidef.zero (fun i _ => hf i)


/-- C6 (amended): after every EKF, SEKF or IEKF operation the exposed
covariance is symmetric and positive semidefinite — the EKF and IEKF
enforce this by symmetrisation `P ← ½(P + Pᵀ)` together with the PSD-
preserving shape of their updates (given PSD process and measurement
noise), and the SEKF by construction of `Sᵀ S`.  The UKFM propagate is
likewise symmetric and positive semidefinite (for a pose with
orthogonal rotation, a positive sigma-point spread `n + λ > 0` and PSD
`Q_eff`, the centre residual vanishes and every other weight is
`1/(2(n+λ)) ≥ 0`); the UKFM update keeps the covariance symmetric, but
`P ← P − K P_zz Kᵀ` does not guarantee positive semidefiniteness. -/
theorem C6_amended_covariance_invariants :
    (∀ F W Q P : Matrix (Fin 6) (Fin 6) ℝ, P.PosSemidef → Q.PosSemidef →
      (ekfPropagateCov F W Q P).PosSemidef ∧
      (ekfPropagateCov F W Q P)ᵀ = ekfPropagateCov F W Q P) ∧
    (∀ (K : Matrix (Fin 6) (Fin 3) ℝ) (H : Matrix (Fin 3) (Fin 6) ℝ)
        (Rm : Matrix (Fin 3) (Fin 3) ℝ) (P : Matrix (Fin 6) (Fin 6) ℝ),
      P.PosSemidef → Rm.PosSemidef →
      (ekfUpdateCov K H Rm P).PosSemidef ∧
      (ekfUpdateCov K H Rm P)ᵀ = ekfUpdateCov K H Rm P) ∧
    (∀ F Qeff P : Matrix (Fin 6) (Fin 6) ℝ,
      P.PosSemidef → Qeff.PosSemidef →
      (iekfPropagateCov F Qeff P).PosSemidef ∧
      (iekfPropagateCov F Qeff P)ᵀ = iekfPropagateCov F Qeff P) ∧
    (∀ S : Matrix (Fin 6) (Fin 6) ℝ,
      (sekfCovariance S).PosSemidef ∧
      (sekfCovariance S)ᵀ = sekfCovariance S) ∧
    (∀ (X : SE3) (P L : Matrix (Fin 6) (Fin 6) ℝ) (a b k : ℝ)
        (h : SE3 → Fin 3 → ℝ) (Rm : Matrix (Fin 3) (Fin 3) ℝ),
      (ukfmUpdateCov X P L a b k h Rm)ᵀ = ukfmUpdateCov X P L a b k h Rm) ∧
    (∀ (X : SE3) (L : Matrix (Fin 6) (Fin 6) ℝ) (a b k : ℝ)
        (u : Fin 6 → ℝ) (Qeff : Matrix (Fin 6) (Fin 6) ℝ),
      (ukfmPropagateCov X L a b k u Qeff)ᵀ =
        ukfmPropagateCov X L a b k u Qeff ∧
      (X.rotᵀ * X.rot = 1 → 0 < 6 + ukfLam a k → Qeff.PosSemidef →
        (ukfmPropagateCov X L a b k u Qeff).PosSemidef)) := by
  refine ⟨?_, ?_, ?_, ?_, ?_, ?_⟩
  · intro F W Q P hP hQ
    exact ⟨symmetrize_psd ((psd_mul_mul_transpose F hP).add
      (psd_mul_mul_transpose W hQ)), symmetrize_transpose _⟩
  · intro K H Rm P hP hR
    exact ⟨symmetrize_psd ((psd_mul_mul_transpose (1 - K * H) hP).add
      (psd_mul_mul_transpose K hR)), symmetrize_transpose _⟩
  · intro F Qeff P hP hQ
    exact ⟨symmetrize_psd ((psd_mul_mul_transpose F hP).add hQ),
      symmetrize_transpose _⟩
  · intro S
    constructor
    · have h := Matrix.posSemidef_conjTranspose_mul_self S
      rwa [Matrix.conjTranspose_eq_transpose_of_trivial] at h
    · rw [sekfCovariance, Matrix.transpose_mul, Matrix.transpose_transpose]
  · intro X P L a b k h Rm
    exact symmetrize_transpose _
  · intro X L a b k u Qeff
    refine ⟨symmetrize_transpose _, fun hX hscale hQ => ?_⟩
    rw [ukfmPropagateCov]
    refine symmetrize_psd (Matrix.PosSemidef.add (psd_sum _ ?_) hQ)
    intro i
    cases i with
    | none =>
      rw [ukfmPropResidual_none X L a k u hX,
        show Matrix.vecMulVec (0 : Fin 6 → ℝ) 0 = 0 by
          ext r c
          simp [Matrix.vecMulVec],
        smul_zero]
      exact Matrix.PosSemidef.zero
    | some p =>
      refine psd_smul _ ?_ (psd_vecMulVec _)
      show 0 ≤ 1 / (2 * (6 + ukfLam a k))
      exact le_of_lt (div_pos one_pos (by linarith))

/-- C6 (amended, witness): the covariance-shape facts instantiated at
identity covariances and the identity pose, with the PSD and
orthogonality hypotheses discharged concretely. -/
theorem C6_amended_covariance_invariants_witness :
    (ekfPropagateCov 1 1 1 1).PosSemidef ∧
    (ekfUpdateCov 0 0 1 1).PosSemidef ∧
    (iekfPropagateCov 1 1 1).PosSemidef ∧
    (ukfmPropagateCov SE3.one 1 1 0 0 0 1).PosSemidef := by
  have h6 : (1 : Matrix (Fin 6) (Fin 6) ℝ).PosSemidef :=
    Matrix.PosDef.one.posSemidef
  have h3 : (1 : Matrix (Fin 3) (Fin 3) ℝ).PosSemidef :=
    Matrix.PosDef.one.posSemidef
  have horth : SE3.one.rotᵀ * SE3.one.rot = 1 := by
    show (1 : Matrix (Fin 3) (Fin 3) ℝ)ᵀ * 1 = 1
    rw [Matrix.transpose_one, Matrix.one_mul]
  have hscale : (0 : ℝ) < 6 + ukfLam 1 0 := by
    norm_num [ukfLam]
  exact ⟨(C6_amended_covariance_invariants.1 1 1 1 1 h6 h6).1,
    (C6_amended_covariance_invariants.2.1 0 0 1 1 h6 h3).1,
    (C6_amended_covariance_invariants.2.2.1 1 1 1 h6 h6).1,
    (C6_amended_covariance_invariants.2.2.2.2.2 SE3.one 1 1 0 0 0 1).2
      horth hscale h6⟩


/-! ## SEKF and EKF run the same covariance

The SEKF (spec 4.4) maintains the upper-triangular factor `S` with
`P = Sᵀ S`; both its propagate and its update are a QR factorisation
of an augmented matrix.  A QR step is modelled relationally: the
library picks some orthogonal `Qo` with the augmented matrix equal to
`Qo` times the new triangular factor.  The EKF (spec 4.3) carries `P`
explicitly.  Both filters are driven by the same operation list; an
operation carries the Jacobians and the Cholesky factors of the noise
covariances (`Q = cholQᵀ cholQ`, `R = cholRᵀ cholR`). -/

/-- Modelled from the spec: the data of one propagate operation. -/
structure PropData (n : Type) where
  F : Matrix n n ℝ
  W : Matrix n n ℝ
  cholQ : Matrix n n ℝ

/-- Modelled from the spec: the data of one update operation. -/
structure UpdData (n m : Type) where
  H : Matrix m n ℝ
  cholR : Matrix m m ℝ

/-- One filter operation: a propagate or an update. -/
inductive KOp (n m : Type) where
  | prop (d : PropData n)
  | upd (d : UpdData n m)

variable {n m : Type} [Fintype n] [DecidableEq n] [Fintype m] [DecidableEq m]

/-- Modelled from the spec: one EKF covariance step — propagate
`P ← F P Fᵀ + W Q Wᵀ`, update via gain `K = P Hᵀ S⁻¹` and the Joseph
form, each followed by symmetrisation. -/
noncomputable def ekfStepCov (P : Matrix n n ℝ) : KOp n m → Matrix n n ℝ
  | .prop d => symmetrize (d.F * P * d.Fᵀ + d.W * (d.cholQᵀ * d.cholQ) * d.Wᵀ)
  | .upd d =>
    symmetrize
      ((1 - P * d.Hᵀ * (d.H * P * d.Hᵀ + d.cholRᵀ * d.cholR)⁻¹ * d.H) * P *
          (1 - P * d.Hᵀ * (d.H * P * d.Hᵀ + d.cholRᵀ * d.cholR)⁻¹ * d.H)ᵀ +
        P * d.Hᵀ * (d.H * P * d.Hᵀ + d.cholRᵀ * d.cholR)⁻¹ *
          (d.cholRᵀ * d.cholR) *
          (P * d.Hᵀ * (d.H * P * d.Hᵀ + d.cholRᵀ * d.cholR)⁻¹)ᵀ)

/-- Modelled from the spec: the EKF covariance after a sequence of
operations. -/
noncomputable def ekfRunCov (P : Matrix n n ℝ) (ops : List (KOp n m)) :
    Matrix n n ℝ :=
  ops.foldl ekfStepCov P

/-- Modelled from the spec: the SEKF runs, relationally.  A propagate
takes the QR of `[S Fᵀ; cholQ Wᵀ]` and keeps the triangular factor; an
update takes the QR of the block matrix `[cholR 0; S Hᵀ S]` and keeps
the lower-right block of the triangular factor. -/
inductive SekfRun :
    Matrix n n ℝ → List (KOp n m) → Matrix n n ℝ → Prop where
  | nil (S : Matrix n n ℝ) : SekfRun S [] S
  | prop (S S1 S2 : Matrix n n ℝ) (d : PropData n)
      (ops : List (KOp n m)) (Qo : Matrix (n ⊕ n) n ℝ)
      (ho : Qoᵀ * Qo = 1)
      (hqr : Matrix.fromRows (S * d.Fᵀ) (d.cholQ * d.Wᵀ) = Qo * S1)
      (hrest : SekfRun S1 ops S2) :
      SekfRun S (KOp.prop d :: ops) S2
  | upd (S S1 S2 : Matrix n n ℝ) (Snu : Matrix m m ℝ) (G : Matrix m n ℝ)
      (d : UpdData n m) (ops : List (KOp n m))
      (Qo : Matrix (m ⊕ n) (m ⊕ n) ℝ)
      (ho : Qoᵀ * Qo = 1)
      (hqr : Matrix.fromBlocks d.cholR 0 (S * d.Hᵀ) S =
        Qo * Matrix.fromBlocks Snu G 0 S1)
      (hrest : SekfRun S1 ops S2) :
      SekfRun S (KOp.upd d :: ops) S2

theorem orthogonal_cancel {p q r : Type} [Fintype p] [Fintype q]
    [DecidableEq q] (Qo : Matrix p q ℝ) (B : Matrix q r ℝ)
    (ho : Qoᵀ * Qo = 1) :
    (Qo * B)ᵀ * (Qo * B) = Bᵀ * B := by
  rw [Matrix.transpose_mul, Matrix.mul_assoc, ← Matrix.mul_assoc Qoᵀ, ho,
    Matrix.one_mul]

theorem fromRows_self_mul {p q r : Type} [Fintype p] [Fintype q]
    (A : Matrix p r ℝ) (B : Matrix q r ℝ) :
    (Matrix.fromRows A B)ᵀ * Matrix.fromRows A B = Aᵀ * A + Bᵀ * B := by
  rw [Matrix.transpose_fromRows, Matrix.fromColumns_mul_fromRows]

theorem psd_transpose_mul_self {p q : Type} [Fintype p] [Fintype q]
    (A : Matrix p q ℝ) : (Aᵀ * A).PosSemidef := by
  have h := Matrix.posSemidef_conjTranspose_mul_self A
  rwa [Matrix.conjTranspose_eq_transpose_of_trivial] at h

theorem sandwich_transpose {p q : Type} [Fintype p] [Fintype q]
    (A : Matrix p q ℝ) (M : Matrix q q ℝ) (hM : Mᵀ = M) :
    (A * M * Aᵀ)ᵀ = A * M * Aᵀ := by
  rw [Matrix.transpose_mul, Matrix.transpose_transpose, Matrix.transpose_mul,
    hM, ← Matrix.mul_assoc]

theorem posDef_transpose_mul_self (A : Matrix m m ℝ) (hA : IsUnit A.det) :
    (Aᵀ * A).PosDef := by
  refine ⟨(psd_transpose_mul_self A).1, ?_⟩
  intro x hx
  have hinj : Function.Injective A.mulVec :=
    Matrix.mulVec_injective_iff_isUnit.mpr (Matrix.isUnit_iff_isUnit_det A
      |>.mpr hA)
  have hAx : A.mulVec x ≠ 0 := by
    intro hc
    exact hx (hinj (by rw [hc, Matrix.mulVec_zero]))
  have hdot : Matrix.dotProduct (star x) ((Aᵀ * A).mulVec x) =
      Matrix.dotProduct (A.mulVec x) (A.mulVec x) := by
    rw [star_trivial, ← Matrix.mulVec_mulVec, Matrix.dotProduct_mulVec,
      Matrix.vecMul_transpose]
  rw [hdot]
  have hnz := Matrix.dotProduct_self_eq_zero (v := A.mulVec x)
  have hge : 0 ≤ Matrix.dotProduct (A.mulVec x) (A.mulVec x) :=
    Finset.sum_nonneg fun i _ => mul_self_nonneg _
  rcases lt_or_eq_of_le hge with h | h
  · exact h
  · exact absurd (hnz.mp h.symm) hAx


theorem sekf_prop_step (S S1 : Matrix n n ℝ) (d : PropData n)
    (Qo : Matrix (n ⊕ n) n ℝ) (ho : Qoᵀ * Qo = 1)
    (hqr : Matrix.fromRows (S * d.Fᵀ) (d.cholQ * d.Wᵀ) = Qo * S1) :
    S1ᵀ * S1 = ekfStepCov (Sᵀ * S) (KOp.prop d : KOp n m) := by
  have h1 : S1ᵀ * S1 =
      (S * d.Fᵀ)ᵀ * (S * d.Fᵀ) + (d.cholQ * d.Wᵀ)ᵀ * (d.cholQ * d.Wᵀ) := by
    rw [← orthogonal_cancel Qo S1 ho, ← hqr, fromRows_self_mul]
  have hsym : (d.F * (Sᵀ * S) * d.Fᵀ + d.W * (d.cholQᵀ * d.cholQ) * d.Wᵀ)ᵀ =
      d.F * (Sᵀ * S) * d.Fᵀ + d.W * (d.cholQᵀ * d.cholQ) * d.Wᵀ := by
    rw [Matrix.transpose_add,
      sandwich_transpose d.F (Sᵀ * S)
        (by rw [Matrix.transpose_mul, Matrix.transpose_transpose]),
      sandwich_transpose d.W (d.cholQᵀ * d.cholQ)
        (by rw [Matrix.transpose_mul, Matrix.transpose_transpose])]
  rw [h1]
  simp only [ekfStepCov]
  rw [symmetrize_of_symm hsym]
  simp only [Matrix.transpose_mul, Matrix.transpose_transpose,
    Matrix.mul_assoc]

theorem joseph_reduce (P : Matrix n n ℝ) (H : Matrix m n ℝ)
    (R' : Matrix m m ℝ) (hP : Pᵀ = P) (hR : R'ᵀ = R')
    (hS : IsUnit (H * P * Hᵀ + R').det) :
    (1 - P * Hᵀ * (H * P * Hᵀ + R')⁻¹ * H) * P *
        (1 - P * Hᵀ * (H * P * Hᵀ + R')⁻¹ * H)ᵀ +
      P * Hᵀ * (H * P * Hᵀ + R')⁻¹ * R' *
        (P * Hᵀ * (H * P * Hᵀ + R')⁻¹)ᵀ =
    P - P * Hᵀ * (H * P * Hᵀ + R')⁻¹ * (H * P) := by
  set Sm := H * P * Hᵀ + R' with hSm
  set K := P * Hᵀ * Sm⁻¹ with hK
  have hSmT : Smᵀ = Sm := by
    rw [hSm, Matrix.transpose_add, hR, sandwich_transpose H P hP]
  have hKT : Kᵀ = Sm⁻¹ * (H * P) := by
    rw [hK, Matrix.transpose_mul, Matrix.transpose_nonsing_inv, hSmT,
      Matrix.transpose_mul, Matrix.transpose_transpose, hP]
  have hKSm : K * Sm = P * Hᵀ := by
    rw [hK, Matrix.mul_assoc, Matrix.nonsing_inv_mul Sm hS, Matrix.mul_one]
  have hPKT : P * (Hᵀ * Kᵀ) = P * Hᵀ * Kᵀ := by rw [Matrix.mul_assoc]
  have hfact : (1 - K * H) * P * (1 - K * H)ᵀ + K * R' * Kᵀ =
      P - K * (H * P) - P * Hᵀ * Kᵀ + K * Sm * Kᵀ := by
    rw [Matrix.transpose_sub, Matrix.transpose_one, Matrix.transpose_mul, hSm]
    simp only [Matrix.sub_mul, Matrix.mul_sub, Matrix.mul_add, Matrix.add_mul,
      Matrix.mul_one, Matrix.one_mul, Matrix.mul_assoc]
    abel
  rw [hfact, hKSm]
  have hKHP : K * (H * P) = P * Hᵀ * Sm⁻¹ * (H * P) := by
    rw [hK]
  rw [hKHP]
  abel


theorem sekf_upd_step (S S1 : Matrix n n ℝ) (Snu : Matrix m m ℝ)
    (G : Matrix m n ℝ) (d : UpdData n m)
    (Qo : Matrix (m ⊕ n) (m ⊕ n) ℝ) (ho : Qoᵀ * Qo = 1)
    (hqr : Matrix.fromBlocks d.cholR 0 (S * d.Hᵀ) S =
      Qo * Matrix.fromBlocks Snu G 0 S1)
    (hRdet : IsUnit d.cholR.det) :
    S1ᵀ * S1 = ekfStepCov (Sᵀ * S) (KOp.upd d : KOp n m) := by
  have hPsym : (Sᵀ * S)ᵀ = Sᵀ * S := by
    rw [Matrix.transpose_mul, Matrix.transpose_transpose]
  have hRsym : (d.cholRᵀ * d.cholR)ᵀ = d.cholRᵀ * d.cholR := by
    rw [Matrix.transpose_mul, Matrix.transpose_transpose]
  have h1 : (Matrix.fromBlocks Snu G 0 S1)ᵀ * Matrix.fromBlocks Snu G 0 S1 =
      (Matrix.fromBlocks d.cholR 0 (S * d.Hᵀ) S)ᵀ *
        Matrix.fromBlocks d.cholR 0 (S * d.Hᵀ) S := by
    rw [hqr, orthogonal_cancel Qo _ ho]
  simp only [Matrix.fromBlocks_transpose, Matrix.fromBlocks_multiply,
    Matrix.transpose_zero, Matrix.mul_zero, Matrix.zero_mul, add_zero,
    zero_add] at h1
  have e11 := congrArg Matrix.toBlocks₁₁ h1
  have e12 := congrArg Matrix.toBlocks₁₂ h1
  have e22 := congrArg Matrix.toBlocks₂₂ h1
  simp only [Matrix.toBlocks_fromBlocks₁₁, Matrix.toBlocks_fromBlocks₁₂,
    Matrix.toBlocks_fromBlocks₂₂] at e11 e12 e22
  have hsh : (S * d.Hᵀ)ᵀ * (S * d.Hᵀ) = d.H * (Sᵀ * S) * d.Hᵀ := by
    simp only [Matrix.transpose_mul, Matrix.transpose_transpose,
      Matrix.mul_assoc]
  have hshs : (S * d.Hᵀ)ᵀ * S = d.H * (Sᵀ * S) := by
    simp only [Matrix.transpose_mul, Matrix.transpose_transpose,
      Matrix.mul_assoc]
  rw [hsh] at e11
  rw [hshs] at e12
  have hRpd : (d.cholRᵀ * d.cholR).PosDef :=
    posDef_transpose_mul_self d.cholR hRdet
  have hsand : (d.H * (Sᵀ * S) * d.Hᵀ).PosSemidef :=
    psd_mul_mul_transpose d.H (psd_transpose_mul_self S)
  have hSnuPD : (Snuᵀ * Snu).PosDef := by
    rw [e11]; exact hRpd.add_posSemidef hsand
  have hSnuDet : IsUnit Snu.det := by
    have hd : (0 : ℝ) < (Snuᵀ * Snu).det := hSnuPD.det_pos
    rw [Matrix.det_mul, Matrix.det_transpose] at hd
    refine isUnit_iff_ne_zero.mpr fun h0 => ?_
    rw [h0, mul_zero] at hd
    exact lt_irrefl 0 hd
  have hSnuTdet : IsUnit Snuᵀ.det := by
    rw [Matrix.det_transpose]; exact hSnuDet
  have hG : G = Snuᵀ⁻¹ * (d.H * (Sᵀ * S)) := by
    rw [← e12, ← Matrix.mul_assoc, Matrix.nonsing_inv_mul Snuᵀ hSnuTdet,
      Matrix.one_mul]
  have hGG : Gᵀ * G = Sᵀ * S * d.Hᵀ * (Snuᵀ * Snu)⁻¹ * (d.H * (Sᵀ * S)) := by
    rw [hG, Matrix.transpose_mul, Matrix.transpose_nonsing_inv,
      Matrix.transpose_transpose, Matrix.transpose_mul, hPsym,
      Matrix.mul_inv_rev]
    simp only [Matrix.mul_assoc]
  have hS1 : S1ᵀ * S1 = Sᵀ * S - Gᵀ * G := eq_sub_of_add_eq' e22
  have hSmPD : (d.H * (Sᵀ * S) * d.Hᵀ + d.cholRᵀ * d.cholR).PosDef := by
    rw [add_comm]; exact hRpd.add_posSemidef hsand
  have hSmDet : IsUnit (d.H * (Sᵀ * S) * d.Hᵀ + d.cholRᵀ * d.cholR).det :=
    isUnit_iff_ne_zero.mpr (ne_of_gt hSmPD.det_pos)
  have hjos_sym : (Sᵀ * S - Sᵀ * S * d.Hᵀ *
      (d.H * (Sᵀ * S) * d.Hᵀ + d.cholRᵀ * d.cholR)⁻¹ * (d.H * (Sᵀ * S)))ᵀ =
      Sᵀ * S - Sᵀ * S * d.Hᵀ *
      (d.H * (Sᵀ * S) * d.Hᵀ + d.cholRᵀ * d.cholR)⁻¹ * (d.H * (Sᵀ * S)) := by
    simp only [Matrix.transpose_sub, Matrix.transpose_mul,
      Matrix.transpose_nonsing_inv, Matrix.transpose_add,
      Matrix.transpose_transpose, Matrix.mul_assoc]
  simp only [ekfStepCov]
  rw [joseph_reduce (Sᵀ * S) d.H (d.cholRᵀ * d.cholR) hPsym hRsym hSmDet,
    symmetrize_of_symm hjos_sym, hS1, hGG, e11,
    add_comm (d.cholRᵀ * d.cholR)]


/-- C8: when the SEKF and the EKF start from the same covariance
(`P₀ = S₀ᵀ S₀`) and are driven by the identical sequence of propagate
and update operations with non-degenerate `R` (so every QR step
succeeds), the covariance reconstructed from the SEKF triangular
factor as `Sᵀ S` equals the EKF covariance exactly — in exact real
arithmetic the two recursions agree, which subsumes the ~1e-8
double-precision agreement of the spec. -/
theorem C8_sekf_matches_ekf (ops : List (KOp n m)) (S0 Sf : Matrix n n ℝ)
    (hrun : SekfRun S0 ops Sf)
    (hR : ∀ d : UpdData n m, KOp.upd d ∈ ops → IsUnit d.cholR.det) :
    Sfᵀ * Sf = ekfRunCov (S0ᵀ * S0) ops := by
  revert hR
  induction hrun with
  | nil S => intro hR; simp [ekfRunCov]
  | prop S S1 S2 d ops Qo ho hqr hrest ih =>
    intro hR
    simp only [ekfRunCov, List.foldl_cons]
    rw [← sekf_prop_step S S1 d Qo ho hqr]
    exact ih fun e he => hR e (List.mem_cons_of_mem _ he)
  | upd S S1 S2 Snu G d ops Qo ho hqr hrest ih =>
    intro hR
    simp only [ekfRunCov, List.foldl_cons]
    rw [← sekf_upd_step S S1 Snu G d Qo ho hqr
      (hR d (List.mem_cons_self _ _))]
    exact ih fun e he => hR e (List.mem_cons_of_mem _ he)

theorem C8_sekf_matches_ekf_witness :
    SekfRun (1 : Matrix (Fin 1) (Fin 1) ℝ)
      ([KOp.prop ⟨1, 1, 0⟩] : List (KOp (Fin 1) (Fin 1))) 1 ∧
    (1 : Matrix (Fin 1) (Fin 1) ℝ)ᵀ * 1 =
      ekfRunCov ((1 : Matrix (Fin 1) (Fin 1) ℝ)ᵀ * 1)
        ([KOp.prop ⟨1, 1, 0⟩] : List (KOp (Fin 1) (Fin 1))) := by
  have ho : (Matrix.fromRows (1 : Matrix (Fin 1) (Fin 1) ℝ)
        (0 : Matrix (Fin 1) (Fin 1) ℝ))ᵀ *
      Matrix.fromRows (1 : Matrix (Fin 1) (Fin 1) ℝ)
        (0 : Matrix (Fin 1) (Fin 1) ℝ) = (1 : Matrix (Fin 1) (Fin 1) ℝ) := by
    rw [fromRows_self_mul]
    simp
  have hqr : Matrix.fromRows
      ((1 : Matrix (Fin 1) (Fin 1) ℝ) *
        (⟨1, 1, 0⟩ : PropData (Fin 1)).Fᵀ)
      ((⟨1, 1, 0⟩ : PropData (Fin 1)).cholQ *
        (⟨1, 1, 0⟩ : PropData (Fin 1)).Wᵀ) =
      Matrix.fromRows (1 : Matrix (Fin 1) (Fin 1) ℝ)
        (0 : Matrix (Fin 1) (Fin 1) ℝ) * (1 : Matrix (Fin 1) (Fin 1) ℝ) := by
    simp
  have hrun : SekfRun (1 : Matrix (Fin 1) (Fin 1) ℝ)
      ([KOp.prop ⟨1, 1, 0⟩] : List (KOp (Fin 1) (Fin 1))) 1 :=
    SekfRun.prop 1 1 1 ⟨1, 1, 0⟩ []
      (Matrix.fromRows (1 : Matrix (Fin 1) (Fin 1) ℝ)
        (0 : Matrix (Fin 1) (Fin 1) ℝ)) ho hqr
      (SekfRun.nil 1)
  exact ⟨hrun, C8_sekf_matches_ekf _ _ _ hrun
    (fun e he => absurd (List.mem_singleton.mp he) (by simp))⟩

end KalmanifSpec
